import Mathlib

/-!
Shallow embedding of the Easy-Allocator memory allocator (src/osmem.c).

The heap managed through the program break is a list of contiguous blocks;
each block carries its header address explicitly, so that the source's
pointer arithmetic (splitting, coalescing, tail extension via sbrk) is
reflected faithfully and the adjacency invariants are real theorems rather
than artifacts of the representation.  The mapped region list only records
(tag, size) pairs: mapped blocks are address-independent (inserted at the
head, removed by identity), and no claim depends on their addresses.

Machine integers: `size_t` is modelled as `Nat`.  The one place where the
source relies on size_t wrap-around semantics is the `nmemb * size`
multiplication in `os_calloc`; there the product is taken modulo 2^64
explicitly.  The subtraction `block_size - TOT_SIZE(last->size)` in
`request_space` is truncated (Nat) subtraction; every call site of the
source guards it (it runs only after a failed best-fit search, which implies
`TOT_SIZE(last->size) < block_size` for a FREE tail).

Memory contents (memcpy/memset payload bytes) are not modelled: no claim
below is about payload bytes.
-/

/-- ALIGNMENT = 8 (src/osmem.c line 9). -/
def ALIGNMENT : Nat := 8

/-- ALIGN(size) = (size + 7) & ~7, i.e. round up to a multiple of 8
(src/osmem.c line 10).  On Nat this equals (size + 7) / 8 * 8. -/
def ALIGN (size : Nat) : Nat := (size + 7) / 8 * 8

/-- Modelled from the spec: `struct block_meta` itself is declared in a
header file that is not part of src/ (only `osmem.c` is).  The spec's data
model (section 3) gives the header fields {size : size_t, status : int,
next : pointer}; on the LP64 target that struct occupies 24 bytes, and
META = align(sizeof(header)) = 24 (src/osmem.c line 11). -/
def META : Nat := 24

/-- TOT_SIZE(size) = ALIGN(size + META_SIZE) (src/osmem.c line 12). -/
def TOT_SIZE (size : Nat) : Nat := ALIGN (size + META)

/-- MMAP_THRESHOLD = 128 * 1024 (src/osmem.c line 13). -/
def MMAP_THRESHOLD : Nat := 128 * 1024

/-- INITIAL_HEAP_SIZE = 128 * 1024 (src/osmem.c line 14). -/
def INITIAL_HEAP_SIZE : Nat := 128 * 1024

/-- Modelled from the spec: `getpagesize()` is an external OS interface
("page-size inquiry", spec section 6); 4096 is the usual page size.  No
claim below depends on its value (os_calloc restores the threshold on every
exit path). -/
def PAGE_SIZE : Nat := 4096

/-- The modulus of size_t arithmetic on the LP64 target. -/
def SIZET_MOD : Nat := 2 ^ 64

/-- Status of a heap-list block: STATUS_FREE or STATUS_ALLOC.  Mapped
blocks (STATUS_MAPPED) live in the separate mapped list of the state and
never in the heap list. -/
inductive BStatus where
  | FREE : BStatus
  | ALLOC : BStatus
deriving DecidableEq, Repr

/-- One heap-list block: its header address (the value of the C block
pointer, as an offset from the initial program break), its payload size
(the header's `size` field) and its status.  The `next` field of the C
header is the list structure itself. -/
structure HBlock where
  addr : Nat
  size : Nat
  status : BStatus
deriving DecidableEq, Repr

/-- A payload pointer as returned to callers: null, a heap pointer (carrying
the header address; the C payload pointer is that plus META), or a mapped
pointer (carrying the identity tag of the mapped block). -/
inductive Ptr where
  | null : Ptr
  | hp : Nat → Ptr
  | mp : Nat → Ptr
deriving DecidableEq, Repr

/-- The allocator's global state: the heap list (headed by `heap_start`;
empty = uninitialized), the current program break (offset from the initial
break, which is taken as address 0), the mapped list (headed by
`mmap_start`) as (identity tag, size) pairs, a counter providing fresh
mapped identities, and the `threshold` variable. -/
structure AllocState where
  heap : List HBlock
  brk : Nat
  mmapList : List (Nat × Nat)
  tagCtr : Nat
  threshold : Nat
deriving DecidableEq, Repr

/-- The state at process start: both lists empty, threshold = MMAP_THRESHOLD
(src/osmem.c lines 16-19). -/
def initState : AllocState :=
  { heap := [], brk := 0, mmapList := [], tagCtr := 0, threshold := MMAP_THRESHOLD }

/-- Reading a block of the heap list by index (a dereference of a block
pointer in the source); the default is never reached at source call sites. -/
def block_at (h : List HBlock) (i : Nat) : HBlock :=
  h.getD i ⟨0, 0, .FREE⟩

/-- find_block_in_heap (src/osmem.c lines 83-94): walk the heap list from
heap_start comparing pointers; here, return the index of the first block
whose header address is `a`, or none. -/
def findIdx (h : List HBlock) (a : Nat) : Option Nat :=
  match h with
  | [] => none
  | b :: rest => if b.addr = a then some 0 else (findIdx rest a).map (· + 1)

/-- request_space (src/osmem.c lines 26-48), acting on the tail of the heap
list (the source receives the `last` pointer; the recursion leaves every
block before the tail unchanged).  Tail FREE: sbrk by
`block_size - TOT_SIZE(last->size)` and grow the tail in place.  Otherwise
(or empty list): sbrk by `block_size` and append a new FREE block at the old
break.  Returns (new break, new heap list); the block the source returns is
the last block of the result. -/
def request_space (brk : Nat) (heap : List HBlock) (block_size : Nat) :
    Nat × List HBlock :=
  match heap with
  | [] => (brk + block_size, [⟨brk, block_size - META, .FREE⟩])
  | [b] =>
    if b.status = .FREE then
      (brk + (block_size - TOT_SIZE b.size),
       [{ b with size := b.size + (block_size - TOT_SIZE b.size) }])
    else
      (brk + block_size, [b, ⟨brk, block_size - META, .FREE⟩])
  | b :: rest =>
    let r := request_space brk rest block_size
    (r.1, b :: r.2)

/-- heap_init (src/osmem.c lines 50-53). -/
def heap_init (st : AllocState) : AllocState :=
  let r := request_space st.brk st.heap INITIAL_HEAP_SIZE
  { st with brk := r.1, heap := r.2 }

/-- coalesce_blocks (src/osmem.c lines 106-110) started at a block `cur`
whose successors are `rest`: while the block is FREE and its next is FREE,
absorb the next (`block->size += TOT_SIZE(next->size)`,
`block->next = next->next`, lines 96-104). -/
def coalesceRun (cur : HBlock) (rest : List HBlock) : HBlock × List HBlock :=
  match rest with
  | [] => (cur, [])
  | c :: rest' =>
    if cur.status = .FREE ∧ c.status = .FREE then
      coalesceRun { cur with size := cur.size + TOT_SIZE c.size } rest'
    else (cur, rest)

/-- The candidate update of find_best_fit (src/osmem.c lines 120-124): a
visited block is a candidate when it is FREE and TOT_SIZE(size) ≥
block_size; keep the candidate of smallest size, earliest on ties.  `best`
records (index in the traversal's output, its size). -/
def consider (block_size : Nat) (b : HBlock) (idx : Nat)
    (best : Option (Nat × Nat)) : Option (Nat × Nat) :=
  if b.status = .FREE ∧ block_size ≤ TOT_SIZE b.size then
    match best with
    | none => some (idx, b.size)
    | some q => if b.size < q.2 then some (idx, b.size) else best
  else best

/-- The traversal of find_best_fit (src/osmem.c lines 112-130) from a
current block `cur` with successors `rest`: first coalesce the current block
fully (merging while current and next are FREE), then consider it as a
candidate and advance.  Returns the heap list as left by the traversal and
the retained candidate. -/
def fbfGo (block_size : Nat) (cur : HBlock) (rest : List HBlock) (idx : Nat)
    (best : Option (Nat × Nat)) : List HBlock × Option (Nat × Nat) :=
  match rest with
  | [] => ([cur], consider block_size cur idx best)
  | c :: rest' =>
    if cur.status = .FREE ∧ c.status = .FREE then
      fbfGo block_size { cur with size := cur.size + TOT_SIZE c.size } rest' idx best
    else
      let r := fbfGo block_size c rest' (idx + 1) (consider block_size cur idx best)
      (cur :: r.1, r.2)

/-- find_best_fit (src/osmem.c lines 112-130): traverse the whole heap list.
The `last` out-parameter of the source is the last block of the returned
list. -/
def find_best_fit (block_size : Nat) (heap : List HBlock) :
    List HBlock × Option (Nat × Nat) :=
  match heap with
  | [] => ([], none)
  | b :: rest => fbfGo block_size b rest 0 none

/-- split_block (src/osmem.c lines 137-147) applied to the block at index
`i`: a new header appears at `block + block_size` with
`size = block->size - block_size`, status FREE, inheriting the old `next`;
the block keeps its status and shrinks to `block_size - META_SIZE`. -/
def split_at (h : List HBlock) (i : Nat) (block_size : Nat) : List HBlock :=
  let b := block_at h i
  h.take i ++ ⟨b.addr, block_size - META, b.status⟩ ::
    ⟨b.addr + block_size, b.size - block_size, .FREE⟩ :: h.drop (i + 1)

/-- Setting the status of the block at index `i` (a field write through a
block pointer). -/
def set_status (h : List HBlock) (i : Nat) (s : BStatus) : List HBlock :=
  match h, i with
  | [], _ => []
  | b :: rest, 0 => { b with status := s } :: rest
  | b :: rest, i + 1 => b :: set_status rest i s

/-- Setting the status of the last block (the block request_space returned). -/
def set_last_status (h : List HBlock) (s : BStatus) : List HBlock :=
  match h with
  | [] => []
  | [b] => [{ b with status := s }]
  | b :: rest => b :: set_last_status rest s

/-- The header address of the last block of the heap list. -/
def last_addr (h : List HBlock) : Nat :=
  (block_at h (h.length - 1)).addr

/-- os_malloc_mmap (src/osmem.c lines 55-69): map TOT_SIZE(size) bytes,
record `size = blk_size - META_SIZE`, push at the head of the mapped list,
return the payload pointer (a fresh mapped identity here). -/
def os_malloc_mmap (st : AllocState) (size : Nat) : AllocState × Ptr :=
  ({ st with
      mmapList := (st.tagCtr, TOT_SIZE size - META) :: st.mmapList,
      tagCtr := st.tagCtr + 1 },
   .mp st.tagCtr)

/-- os_malloc_sbrk (src/osmem.c lines 149-171): initialize the heap if
needed, run best-fit; on a hit mark ALLOC and split when strictly larger;
on a miss extend via request_space(last, blk_size) and mark ALLOC. -/
def os_malloc_sbrk (st : AllocState) (size : Nat) : AllocState × Ptr :=
  let st := if st.heap.isEmpty then heap_init st else st
  let blk_size := TOT_SIZE size
  let r := find_best_fit blk_size st.heap
  match r.2 with
  | none =>
    let q := request_space st.brk r.1 blk_size
    let h2 := set_last_status q.2 .ALLOC
    ({ st with brk := q.1, heap := h2 }, .hp (last_addr h2))
  | some (i, _) =>
    let b := block_at r.1 i
    let h2 := set_status r.1 i .ALLOC
    let h3 := if blk_size < b.size then split_at h2 i blk_size else h2
    ({ st with heap := h3 }, .hp b.addr)

/-- os_malloc (src/osmem.c lines 173-185): null on size 0, align, heap path
when TOT_SIZE is below the threshold, mapped path otherwise. -/
def os_malloc (st : AllocState) (size : Nat) : AllocState × Ptr :=
  if size = 0 then (st, .null)
  else
    let size := ALIGN size
    let blk_size := TOT_SIZE size
    if blk_size < st.threshold then os_malloc_sbrk st size
    else os_malloc_mmap st size

/-- os_free_sbrk (src/osmem.c lines 187-196) at header address `a`: ignore
a pointer not reachable from heap_start; otherwise mark FREE and coalesce
forward from the block. -/
def os_free_sbrk (st : AllocState) (a : Nat) : AllocState :=
  match findIdx st.heap a with
  | none => st
  | some i =>
    let p := coalesceRun { block_at st.heap i with status := .FREE }
      (st.heap.drop (i + 1))
    { st with heap := st.heap.take i ++ p.1 :: p.2 }

/-- Removing the first mapped block with identity `t` (the unlink loop of
os_free_mmap, src/osmem.c lines 198-216; silent when not found). -/
def removeTag (l : List (Nat × Nat)) (t : Nat) : List (Nat × Nat) :=
  match l with
  | [] => []
  | q :: rest => if q.1 = t then rest else q :: removeTag rest t

/-- os_free_mmap (src/osmem.c lines 198-216). -/
def os_free_mmap (st : AllocState) (t : Nat) : AllocState :=
  { st with mmapList := removeTag st.mmapList t }

/-- os_free (src/osmem.c lines 218-229): null is a no-op; dispatch on the
block's recorded status.  A heap pointer (dangling or not) reads a
non-MAPPED status and takes the sbrk path; a mapped pointer reads MAPPED. -/
def os_free (st : AllocState) (p : Ptr) : AllocState :=
  match p with
  | .null => st
  | .hp a => os_free_sbrk st a
  | .mp t => os_free_mmap st t

/-- os_calloc (src/osmem.c lines 231-242): set the threshold to the page
size, malloc `nmemb * size` (size_t arithmetic), zero the payload (byte
contents are not modelled), restore the threshold to MMAP_THRESHOLD. -/
def os_calloc (st : AllocState) (nmemb size : Nat) : AllocState × Ptr :=
  let st1 := { st with threshold := PAGE_SIZE }
  let total_size := nmemb * size % SIZET_MOD
  let r := os_malloc st1 total_size
  ({ r.1 with threshold := MMAP_THRESHOLD }, r.2)

/-- The in-place grow loop of os_realloc_sbrk (src/osmem.c lines 274-275):
while TOT_SIZE(block->size) < blk_size and the block can be coalesced with
its FREE successor, absorb one successor. -/
def growLoop (block_size : Nat) (cur : HBlock) (rest : List HBlock) :
    HBlock × List HBlock :=
  match rest with
  | [] => (cur, [])
  | c :: rest' =>
    if TOT_SIZE cur.size < block_size ∧ cur.status = .FREE ∧ c.status = .FREE then
      growLoop block_size { cur with size := cur.size + TOT_SIZE c.size } rest'
    else (cur, rest)

/-- os_realloc_mmap (src/osmem.c lines 244-253): allocate fresh via
os_malloc, copy (not modelled), unmap the old mapped block. -/
def os_realloc_mmap (st : AllocState) (t : Nat) (size : Nat) : AllocState × Ptr :=
  let r := os_malloc st size
  (os_free_mmap r.1 t, r.2)

/-- os_realloc_sbrk (src/osmem.c lines 255-316) at header address `a` with
the already-aligned `size`.  Null for a block not in the heap list;
promotion to the mapped region when TOT_SIZE(size) ≥ threshold; otherwise
the in-place grow attempt (mark FREE, coalesce forward while too small,
mark ALLOC), then: in-place success (split when strictly larger, original
pointer); last block (mark FREE, best-fit over the whole list, extend via
request_space on a miss returning the original pointer, or move into the
candidate); or relocation (re-split to TOT_SIZE(old_size) when the attempt
over-coalesced, fresh os_malloc_sbrk, free the old block). -/
def os_realloc_sbrk (st : AllocState) (a : Nat) (size : Nat) : AllocState × Ptr :=
  let blk_size := TOT_SIZE size
  match findIdx st.heap a with
  | none => (st, .null)
  | some i =>
    if st.threshold ≤ blk_size then
      let r := os_malloc_mmap st size
      (os_free_sbrk r.1 a, r.2)
    else
      let old_size := (block_at st.heap i).size
      let g := growLoop blk_size { block_at st.heap i with status := .FREE }
        (st.heap.drop (i + 1))
      let b1 := { g.1 with status := .ALLOC }
      let h1 := st.heap.take i ++ b1 :: g.2
      if blk_size ≤ TOT_SIZE b1.size then
        (({ st with heap := if blk_size < b1.size then split_at h1 i blk_size else h1 }),
         .hp a)
      else if g.2 = [] then
        let h3 := st.heap.take i ++ [{ b1 with status := .FREE }]
        let r := find_best_fit blk_size h3
        match r.2 with
        | none =>
          let q := request_space st.brk r.1 blk_size
          let h4 := set_last_status q.2 .ALLOC
          ({ st with brk := q.1, heap := h4 }, .hp a)
        | some (j, _) =>
          let bj := block_at r.1 j
          let h4 := set_status r.1 j .ALLOC
          (os_free_sbrk { st with heap := h4 } a, .hp bj.addr)
      else
        let h5 := if b1.size ≠ old_size then split_at h1 i (TOT_SIZE old_size) else h1
        let r := os_malloc_sbrk { st with heap := h5 } size
        (os_free_sbrk r.1 a, r.2)

/-- os_realloc (src/osmem.c lines 318-337): null pointer ⇒ malloc; zero
size ⇒ free and null; align; FREE block ⇒ null; MAPPED ⇒ mapped realloc;
otherwise heap realloc.  A dangling heap pointer reads an unspecified
non-MAPPED, non-FREE status and takes the heap path (where the
reachability check returns null). -/
def os_realloc (st : AllocState) (p : Ptr) (size : Nat) : AllocState × Ptr :=
  match p with
  | .null => os_malloc st size
  | .mp t =>
    if size = 0 then (os_free st (.mp t), .null)
    else os_realloc_mmap st t (ALIGN size)
  | .hp a =>
    if size = 0 then (os_free st (.hp a), .null)
    else
      match findIdx st.heap a with
      | some i =>
        if (block_at st.heap i).status = .FREE then (st, .null)
        else os_realloc_sbrk st a (ALIGN size)
      | none => os_realloc_sbrk st a (ALIGN size)

/-- A public call of the allocator's API. -/
inductive Event where
  | malloc : Nat → Event
  | free : Ptr → Event
  | calloc : Nat → Nat → Event
  | realloc : Ptr → Nat → Event
deriving DecidableEq, Repr

/-- The state transition of one public call. -/
def step (st : AllocState) (e : Event) : AllocState :=
  match e with
  | .malloc n => (os_malloc st n).1
  | .free p => os_free st p
  | .calloc a b => (os_calloc st a b).1
  | .realloc p n => (os_realloc st p n).1

/-- The state after a sequence of public calls from process start. -/
def execTrace (evs : List Event) : AllocState :=
  evs.foldl step initState

/-! ## Arithmetic facts about ALIGN and TOT_SIZE -/

theorem ALIGN_mod8 (n : Nat) : ALIGN n % 8 = 0 := by
  unfold ALIGN
  exact Nat.mul_mod_left _ 8

theorem ALIGN_le (n : Nat) : n ≤ ALIGN n := by
  unfold ALIGN
  have h := Nat.lt_div_mul_add (a := n + 7) (b := 8) (by norm_num)
  omega

theorem ALIGN_eq_of_mod8 (n : Nat) (h : n % 8 = 0) : ALIGN n = n := by
  unfold ALIGN
  obtain ⟨k, rfl⟩ := Nat.dvd_of_mod_eq_zero h
  have h78 : (7 : Nat) / 8 = 0 := by norm_num
  rw [Nat.add_comm, Nat.add_mul_div_left 7 k (by norm_num : (0 : Nat) < 8), h78]
  omega

theorem TOT_SIZE_mod8 (s : Nat) : TOT_SIZE s % 8 = 0 := ALIGN_mod8 _

theorem TOT_SIZE_eq_of_mod8 (s : Nat) (h : s % 8 = 0) : TOT_SIZE s = s + META := by
  unfold TOT_SIZE
  exact ALIGN_eq_of_mod8 _ (by unfold META; omega)

theorem META_le_TOT_SIZE (s : Nat) : META ≤ TOT_SIZE s := by
  have h := ALIGN_le (s + META)
  unfold TOT_SIZE
  omega

theorem TOT_SIZE_merge (s1 s2 : Nat) (h1 : s1 % 8 = 0) :
    TOT_SIZE (s1 + TOT_SIZE s2) = TOT_SIZE s1 + TOT_SIZE s2 := by
  have h2 := TOT_SIZE_mod8 s2
  have e1 := TOT_SIZE_eq_of_mod8 s1 h1
  have e3 := TOT_SIZE_eq_of_mod8 (s1 + TOT_SIZE s2) (by omega)
  omega

theorem TOT_SIZE_sub_META (blk : Nat) (h8 : blk % 8 = 0) (hge : META ≤ blk) :
    TOT_SIZE (blk - META) = blk := by
  unfold TOT_SIZE
  have : blk - META + META = blk := by omega
  rw [this]
  exact ALIGN_eq_of_mod8 _ h8

/-! ## The heap-shape invariant: blocks are contiguous from the initial
break, every stored size is a multiple of 8, and the current break is the
end of the last block. -/

def chainBrk : Nat → List HBlock → Nat → Prop
  | a, [], e => e = a
  | a, b :: rest, e =>
    b.addr = a ∧ b.size % 8 = 0 ∧ chainBrk (a + TOT_SIZE b.size) rest e

def chainBrkDec (a : Nat) (l : List HBlock) (e : Nat) : Decidable (chainBrk a l e) :=
  match l with
  | [] => inferInstanceAs (Decidable (e = a))
  | b :: rest =>
    have _h := chainBrkDec (a + TOT_SIZE b.size) rest e
    inferInstanceAs (Decidable (_ ∧ _ ∧ _))

instance (a : Nat) (l : List HBlock) (e : Nat) : Decidable (chainBrk a l e) :=
  chainBrkDec a l e

/-- The allocator state is well-formed when its heap list is a contiguous
chain starting at the initial break (address 0) and ending at the current
break. -/
def WF (st : AllocState) : Prop := chainBrk 0 st.heap st.brk

instance (st : AllocState) : Decidable (WF st) := chainBrkDec 0 st.heap st.brk

/-- The no-adjacent-free predicate of the spec, stated over indices of the
heap list. -/
def noAdjFree (h : List HBlock) : Prop :=
  ∀ i, i + 1 < h.length →
    ¬((block_at h i).status = .FREE ∧ (block_at h (i + 1)).status = .FREE)

instance (h : List HBlock) : Decidable (noAdjFree h) :=
  decidable_of_iff
    (∀ i < h.length - 1,
      ¬((block_at h i).status = .FREE ∧ (block_at h (i + 1)).status = .FREE))
    (by
      constructor
      · intro hh i hi
        exact hh i (by omega)
      · intro hh i hi
        exact hh i (by omega))

/-- The adjacency property of claim C5, as the spec words it: following
`next` from the head, the address of each successor is the address of its
predecessor plus the predecessor's total size. -/
def adjacent_ok (h : List HBlock) : Prop :=
  ∀ i, i + 1 < h.length →
    (block_at h (i + 1)).addr = (block_at h i).addr + TOT_SIZE (block_at h i).size

/-- Strictly increasing header addresses along the heap list. -/
def addr_increasing (h : List HBlock) : Prop :=
  ∀ i j, i < j → j < h.length → (block_at h i).addr < (block_at h j).addr

/-- Total free payload bytes of the heap list (claim C9's measure). -/
def freeBytes (h : List HBlock) : Nat :=
  (h.filter (fun b => b.status = .FREE)).foldr (fun b acc => b.size + acc) 0

/-! ## Basic lemmas about the chain invariant -/

theorem chainBrk_nil (a e : Nat) : chainBrk a [] e ↔ e = a := Iff.rfl

theorem chainBrk_cons (a e : Nat) (b : HBlock) (l : List HBlock) :
    chainBrk a (b :: l) e ↔
      b.addr = a ∧ b.size % 8 = 0 ∧ chainBrk (a + TOT_SIZE b.size) l e := Iff.rfl

theorem chainBrk_append (xs ys : List HBlock) (a e : Nat) :
    chainBrk a (xs ++ ys) e ↔ ∃ m, chainBrk a xs m ∧ chainBrk m ys e := by
  induction xs generalizing a with
  | nil =>
    constructor
    · intro h
      exact ⟨a, rfl, h⟩
    · rintro ⟨m, hm, h⟩
      have : m = a := hm
      subst this
      exact h
  | cons b rest ih =>
    constructor
    · rintro ⟨h1, h2, h3⟩
      obtain ⟨m, h4, h5⟩ := (ih _).1 h3
      exact ⟨m, ⟨h1, h2, h4⟩, h5⟩
    · rintro ⟨m, ⟨h1, h2, h3⟩, h4⟩
      exact ⟨h1, h2, (ih _).2 ⟨m, h3, h4⟩⟩

theorem chainBrk_size_mod8 (a e : Nat) (h : List HBlock)
    (hc : chainBrk a h e) : ∀ i, i < h.length → (block_at h i).size % 8 = 0 := by
  induction h generalizing a with
  | nil => intro i hi; simp at hi
  | cons b rest ih =>
    intro i hi
    match i with
    | 0 => exact hc.2.1
    | i + 1 =>
      have := ih _ hc.2.2 i (by simpa using hi)
      simpa [block_at] using this

theorem chainBrk_adjacent (a e : Nat) (h : List HBlock)
    (hc : chainBrk a h e) : adjacent_ok h := by
  induction h generalizing a with
  | nil => intro i hi; simp at hi
  | cons b rest ih =>
    intro i hi
    match rest, i with
    | c :: rest', 0 =>
      have h1 : b.addr = a := hc.1
      have h2 : c.addr = a + TOT_SIZE b.size := hc.2.2.1
      simp only [block_at, List.getD_cons_succ, List.getD_cons_zero]
      omega
    | c :: rest', i + 1 =>
      have := ih _ hc.2.2 i (by simpa using hi)
      simpa [block_at] using this

theorem chainBrk_addr_increasing (a e : Nat) (h : List HBlock)
    (hc : chainBrk a h e) : addr_increasing h := by
  have hadj := chainBrk_adjacent a e h hc
  intro i j hij hj
  induction j with
  | zero => omega
  | succ j ihj =>
    have hstep : (block_at h j).addr < (block_at h (j + 1)).addr := by
      have := hadj j hj
      have := META_le_TOT_SIZE (block_at h j).size
      unfold META at this
      omega
    rcases Nat.lt_or_ge i j with hlt | hge
    · exact lt_trans (ihj hlt (by omega)) hstep
    · have : i = j := by omega
      subst this
      exact hstep

/-! ## List-surgery helper lemmas -/

theorem block_at_cons_zero (b : HBlock) (l : List HBlock) :
    block_at (b :: l) 0 = b := rfl

theorem block_at_cons_succ (b : HBlock) (l : List HBlock) (i : Nat) :
    block_at (b :: l) (i + 1) = block_at l i := rfl

theorem block_at_append_left (xs ys : List HBlock) (i : Nat)
    (h : i < xs.length) : block_at (xs ++ ys) i = block_at xs i :=
  List.getD_append xs ys _ i h

theorem block_at_append_right (xs ys : List HBlock) (i : Nat)
    (h : xs.length ≤ i) : block_at (xs ++ ys) i = block_at ys (i - xs.length) :=
  List.getD_append_right xs ys _ i h

theorem block_at_default (h : List HBlock) (i : Nat) (hi : h.length ≤ i) :
    block_at h i = ⟨0, 0, .FREE⟩ :=
  List.getD_eq_default h _ hi

/-- Decomposing a list at an index. -/
theorem take_cons_drop (h : List HBlock) (i : Nat) (hi : i < h.length) :
    h.take i ++ block_at h i :: h.drop (i + 1) = h := by
  induction h generalizing i with
  | nil => simp at hi
  | cons b rest ih =>
    match i with
    | 0 => simp [block_at]
    | i + 1 =>
      simp only [List.take_succ_cons, List.drop_succ_cons, List.cons_append,
        block_at_cons_succ]
      rw [ih i (by simpa using hi)]

theorem take_of_append (xs ys : List HBlock) : (xs ++ ys).take xs.length = xs := by
  simp

theorem length_take_of_lt (h : List HBlock) (i : Nat) (hi : i ≤ h.length) :
    (h.take i).length = i := by
  simp [Nat.min_eq_left hi]

/-- take at an index ending on a known block. -/
theorem take_succ_block (h : List HBlock) (i : Nat) (hi : i < h.length) :
    h.take (i + 1) = h.take i ++ [block_at h i] := by
  induction h generalizing i with
  | nil => simp at hi
  | cons b rest ih =>
    match i with
    | 0 => simp [block_at]
    | i + 1 =>
      simp only [List.take_succ_cons, block_at_cons_succ, List.cons_append]
      rw [ih i (by simpa using hi)]

/-! ## findIdx lemmas -/

theorem findIdx_eq_some_iff (h : List HBlock) (a : Nat) (i : Nat) :
    findIdx h a = some i ↔
      i < h.length ∧ (block_at h i).addr = a ∧
        ∀ j, j < i → (block_at h j).addr ≠ a := by
  induction h generalizing i with
  | nil => simp [findIdx]
  | cons b rest ih =>
    by_cases hb : b.addr = a
    · simp only [findIdx, if_pos hb]
      constructor
      · intro he
        have : i = 0 := by
          injection he with he'
          omega
        subst this
        exact ⟨by simp, by simpa [block_at] using hb, fun j hj => by omega⟩
      · rintro ⟨h1, h2, h3⟩
        match i with
        | 0 => rfl
        | i + 1 =>
          exact absurd hb (h3 0 (by omega))
    · simp only [findIdx, if_neg hb]
      match i with
      | 0 =>
        simp only [Option.map_eq_some']
        constructor
        · rintro ⟨j, _, hj⟩
          omega
        · rintro ⟨_, h2, _⟩
          exact absurd (by simpa [block_at] using h2) hb
      | i + 1 =>
        simp only [Option.map_eq_some']
        constructor
        · rintro ⟨j, hj, hji⟩
          have hje : j = i := by omega
          rw [hje] at hj
          obtain ⟨h1, h2, h3⟩ := (ih i).1 hj
          refine ⟨by simpa using h1, by simpa [block_at] using h2, ?_⟩
          intro j hji'
          match j with
          | 0 => simpa [block_at] using hb
          | j + 1 => exact h3 j (by omega)
        · rintro ⟨h1, h2, h3⟩
          refine ⟨i, (ih i).2 ⟨by simpa using h1, by simpa [block_at] using h2, ?_⟩, rfl⟩
          intro j hj
          exact h3 (j + 1) (by omega)

theorem findIdx_eq_none_iff (h : List HBlock) (a : Nat) :
    findIdx h a = none ↔ ∀ j, j < h.length → (block_at h j).addr ≠ a := by
  induction h with
  | nil => simp [findIdx]
  | cons b rest ih =>
    by_cases hb : b.addr = a
    · simp only [findIdx, if_pos hb]
      constructor
      · intro he
        exact absurd he (by simp)
      · intro hall
        exact absurd (by simpa [block_at] using hb) (hall 0 (by simp))
    · simp only [findIdx, if_neg hb, Option.map_eq_none', ih]
      constructor
      · intro hall j hj
        match j with
        | 0 => simpa [block_at] using hb
        | j + 1 => exact hall j (by simpa using hj)
      · intro hall j hj
        exact hall (j + 1) (by simpa using hj)

/-! ## Pointwise lemmas about set_status, split_at, set_last_status -/

theorem set_status_length (h : List HBlock) (i : Nat) (s : BStatus) :
    (set_status h i s).length = h.length := by
  induction h generalizing i with
  | nil => rfl
  | cons b rest ih =>
    match i with
    | 0 => rfl
    | i + 1 => simpa [set_status] using ih i

theorem block_at_set_status_ne (h : List HBlock) (i j : Nat) (s : BStatus)
    (hij : j ≠ i) : block_at (set_status h i s) j = block_at h j := by
  induction h generalizing i j with
  | nil => rfl
  | cons b rest ih =>
    match i, j with
    | 0, 0 => omega
    | 0, j + 1 => rfl
    | i + 1, 0 => rfl
    | i + 1, j + 1 => simpa [set_status, block_at] using ih i j (by omega)

theorem block_at_set_status_eq (h : List HBlock) (i : Nat) (s : BStatus)
    (hi : i < h.length) :
    block_at (set_status h i s) i = { block_at h i with status := s } := by
  induction h generalizing i with
  | nil => simp at hi
  | cons b rest ih =>
    match i with
    | 0 => rfl
    | i + 1 => simpa [set_status, block_at] using ih i (by simpa using hi)

theorem set_status_append_at (xs : List HBlock) (b : HBlock) (l : List HBlock)
    (s : BStatus) :
    set_status (xs ++ b :: l) xs.length s = xs ++ { b with status := s } :: l := by
  induction xs with
  | nil => rfl
  | cons x xs ih => simpa [set_status] using ih

theorem set_last_status_append (xs : List HBlock) (b : HBlock) (s : BStatus) :
    set_last_status (xs ++ [b]) s = xs ++ [{ b with status := s }] := by
  induction xs with
  | nil => rfl
  | cons x xs ih =>
    match xs with
    | [] => rfl
    | y :: ys => simpa [set_last_status] using ih

theorem last_addr_append (xs : List HBlock) (b : HBlock) :
    last_addr (xs ++ [b]) = b.addr := by
  unfold last_addr
  have hl : (xs ++ [b]).length = xs.length + 1 := by simp
  rw [hl]
  simp only [Nat.add_sub_cancel]
  rw [block_at_append_right xs [b] xs.length (le_refl _)]
  simp [block_at]

/-! ## noAdjFree structural lemmas -/

theorem noAdjFree_nil : noAdjFree [] := by
  intro i hi
  simp at hi

theorem noAdjFree_singleton (b : HBlock) : noAdjFree [b] := by
  intro i hi
  simp at hi

theorem noAdjFree_cons (x : HBlock) (l : List HBlock) :
    noAdjFree (x :: l) ↔
      (l ≠ [] → ¬(x.status = .FREE ∧ (block_at l 0).status = .FREE)) ∧
        noAdjFree l := by
  constructor
  · intro hn
    constructor
    · intro hne
      have hlen : 0 + 1 < (x :: l).length := by
        cases l with
        | nil => exact absurd rfl hne
        | cons c cs => simp
      exact hn 0 hlen
    · intro i hi
      exact hn (i + 1) (by simpa using hi)
  · rintro ⟨h0, hrest⟩ i hi
    match i with
    | 0 =>
      apply h0
      intro he
      rw [he] at hi
      simp at hi
    | i + 1 => exact hrest i (by simpa using hi)

/-! ## coalesceRun lemmas -/

theorem coalesceRun_addr_status (cur : HBlock) (rest : List HBlock) :
    (coalesceRun cur rest).1.addr = cur.addr ∧
      (coalesceRun cur rest).1.status = cur.status := by
  induction rest generalizing cur with
  | nil => exact ⟨rfl, rfl⟩
  | cons c rest' ih =>
    by_cases hm : cur.status = .FREE ∧ c.status = .FREE
    · simpa [coalesceRun, if_pos hm] using ih _
    · simp [coalesceRun, if_neg hm]

theorem coalesceRun_stop (cur : HBlock) (rest : List HBlock)
    (h : rest = [] ∨ ¬(cur.status = .FREE ∧ (block_at rest 0).status = .FREE)) :
    coalesceRun cur rest = (cur, rest) := by
  match rest with
  | [] => rfl
  | c :: rest' =>
    have hnc : ¬(cur.status = .FREE ∧ c.status = .FREE) := by
      rcases h with h | h
      · simp at h
      · simpa [block_at] using h
    simp [coalesceRun, if_neg hnc]

theorem coalesceRun_chain (a e : Nat) :
    ∀ (rest : List HBlock) (cur : HBlock),
      chainBrk a (cur :: rest) e →
      chainBrk a ((coalesceRun cur rest).1 :: (coalesceRun cur rest).2) e := by
  intro rest
  induction rest with
  | nil => intro cur hc; exact hc
  | cons c rest' ih =>
    intro cur hc
    by_cases hm : cur.status = .FREE ∧ c.status = .FREE
    · rw [coalesceRun, if_pos hm]
      apply ih
      obtain ⟨h1, h2, h3, h4, h5⟩ := hc
      refine ⟨h1, ?_, ?_⟩
      · have := TOT_SIZE_mod8 c.size
        simp only []
        omega
      · show chainBrk (a + TOT_SIZE (cur.size + TOT_SIZE c.size)) rest' e
        rw [TOT_SIZE_merge _ _ h2, ← Nat.add_assoc]
        exact h5
    · rw [coalesceRun, if_neg hm]
      exact hc

/-! ## growLoop lemmas -/

theorem growLoop_addr_status (blk : Nat) (cur : HBlock) (rest : List HBlock) :
    (growLoop blk cur rest).1.addr = cur.addr ∧
      (growLoop blk cur rest).1.status = cur.status := by
  induction rest generalizing cur with
  | nil => exact ⟨rfl, rfl⟩
  | cons c rest' ih =>
    by_cases hm : TOT_SIZE cur.size < blk ∧ cur.status = .FREE ∧ c.status = .FREE
    · simpa [growLoop, if_pos hm] using ih _
    · simp [growLoop, if_neg hm]

theorem growLoop_size (blk : Nat) (cur : HBlock) (rest : List HBlock) :
    (growLoop blk cur rest).1.size = cur.size ∨
      cur.size + META ≤ (growLoop blk cur rest).1.size := by
  induction rest generalizing cur with
  | nil => exact Or.inl rfl
  | cons c rest' ih =>
    by_cases hm : TOT_SIZE cur.size < blk ∧ cur.status = .FREE ∧ c.status = .FREE
    · rw [growLoop, if_pos hm]
      have hge := META_le_TOT_SIZE c.size
      rcases ih { cur with size := cur.size + TOT_SIZE c.size } with h | h
      · right
        simp only [] at h
        omega
      · right
        simp only [] at h
        omega
    · rw [growLoop, if_neg hm]
      exact Or.inl rfl

theorem growLoop_size_mod8 (blk : Nat) (cur : HBlock) (rest : List HBlock)
    (h : cur.size % 8 = 0) : (growLoop blk cur rest).1.size % 8 = 0 := by
  induction rest generalizing cur with
  | nil => exact h
  | cons c rest' ih =>
    by_cases hm : TOT_SIZE cur.size < blk ∧ cur.status = .FREE ∧ c.status = .FREE
    · rw [growLoop, if_pos hm]
      apply ih
      have := TOT_SIZE_mod8 c.size
      simp only []
      omega
    · rw [growLoop, if_neg hm]
      exact h

theorem growLoop_chain (blk : Nat) (a e : Nat) :
    ∀ (rest : List HBlock) (cur : HBlock),
      chainBrk a (cur :: rest) e →
      chainBrk a ((growLoop blk cur rest).1 :: (growLoop blk cur rest).2) e := by
  intro rest
  induction rest with
  | nil => intro cur hc; exact hc
  | cons c rest' ih =>
    intro cur hc
    by_cases hm : TOT_SIZE cur.size < blk ∧ cur.status = .FREE ∧ c.status = .FREE
    · rw [growLoop, if_pos hm]
      apply ih
      obtain ⟨h1, h2, h3, h4, h5⟩ := hc
      refine ⟨h1, ?_, ?_⟩
      · have := TOT_SIZE_mod8 c.size
        simp only []
        omega
      · show chainBrk (a + TOT_SIZE (cur.size + TOT_SIZE c.size)) rest' e
        rw [TOT_SIZE_merge _ _ h2, ← Nat.add_assoc]
        exact h5
    · rw [growLoop, if_neg hm]
      exact hc

/-! ## fbfGo lemmas: the best-fit traversal -/

theorem fbfGo_shape (blk : Nat) :
    ∀ (rest : List HBlock) (cur : HBlock) (idx : Nat) (best : Option (Nat × Nat)),
      ∃ cur' t, (fbfGo blk cur rest idx best).1 = cur' :: t ∧
        cur'.addr = cur.addr ∧ cur'.status = cur.status := by
  intro rest
  induction rest with
  | nil =>
    intro cur idx best
    exact ⟨cur, [], rfl, rfl, rfl⟩
  | cons c rest' ih =>
    intro cur idx best
    by_cases hm : cur.status = .FREE ∧ c.status = .FREE
    · rw [fbfGo, if_pos hm]
      obtain ⟨cur', t, he, ha, hs⟩ := ih { cur with size := cur.size + TOT_SIZE c.size } idx best
      exact ⟨cur', t, he, ha, hs⟩
    · rw [fbfGo, if_neg hm]
      exact ⟨cur, _, rfl, rfl, rfl⟩

theorem fbfGo_chain (blk : Nat) (a e : Nat) :
    ∀ (rest : List HBlock) (cur : HBlock) (idx : Nat) (best : Option (Nat × Nat)),
      chainBrk a (cur :: rest) e →
      chainBrk a (fbfGo blk cur rest idx best).1 e := by
  intro rest
  induction rest generalizing a with
  | nil => intro cur idx best hc; exact hc
  | cons c rest' ih =>
    intro cur idx best hc
    by_cases hm : cur.status = .FREE ∧ c.status = .FREE
    · rw [fbfGo, if_pos hm]
      apply ih
      obtain ⟨h1, h2, h3, h4, h5⟩ := hc
      refine ⟨h1, ?_, ?_⟩
      · have := TOT_SIZE_mod8 c.size
        simp only []
        omega
      · show chainBrk (a + TOT_SIZE (cur.size + TOT_SIZE c.size)) rest' e
        rw [TOT_SIZE_merge _ _ h2, ← Nat.add_assoc]
        exact h5
    · rw [fbfGo, if_neg hm]
      obtain ⟨h1, h2, h3⟩ := hc
      exact ⟨h1, h2, ih _ _ _ _ h3⟩

theorem fbfGo_noAdjFree (blk : Nat) :
    ∀ (rest : List HBlock) (cur : HBlock) (idx : Nat) (best : Option (Nat × Nat)),
      noAdjFree (fbfGo blk cur rest idx best).1 := by
  intro rest
  induction rest with
  | nil => intro cur idx best; exact noAdjFree_singleton cur
  | cons c rest' ih =>
    intro cur idx best
    by_cases hm : cur.status = .FREE ∧ c.status = .FREE
    · rw [fbfGo, if_pos hm]
      exact ih _ _ _
    · rw [fbfGo, if_neg hm]
      rw [noAdjFree_cons]
      refine ⟨?_, ih _ _ _⟩
      intro _ hpair
      obtain ⟨c', t, he, _, hs⟩ := fbfGo_shape blk rest' c (idx + 1)
        (consider blk cur idx best)
      rw [he] at hpair
      rw [block_at_cons_zero] at hpair
      exact hm ⟨hpair.1, hs ▸ hpair.2⟩

theorem fbfGo_id (blk : Nat) :
    ∀ (rest : List HBlock) (cur : HBlock) (idx : Nat) (best : Option (Nat × Nat)),
      noAdjFree (cur :: rest) →
      (fbfGo blk cur rest idx best).1 = cur :: rest := by
  intro rest
  induction rest with
  | nil => intro cur idx best _; rfl
  | cons c rest' ih =>
    intro cur idx best hn
    have hpair := (noAdjFree_cons cur (c :: rest')).1 hn
    have hm : ¬(cur.status = .FREE ∧ c.status = .FREE) := by
      have := hpair.1 (by simp)
      simpa [block_at] using this
    rw [fbfGo, if_neg hm]
    show cur :: (fbfGo blk c rest' (idx + 1) (consider blk cur idx best)).1 =
      cur :: c :: rest'
    rw [ih c (idx + 1) (consider blk cur idx best) hpair.2]

/-! ## The functional specification of find_best_fit -/

/-- A block fit to serve a required total of `block_size` bytes: it is FREE
and its total size is at least `block_size` (the candidate condition of
src/osmem.c lines 120-121). -/
def isCandidate (block_size : Nat) (b : HBlock) : Prop :=
  b.status = .FREE ∧ block_size ≤ TOT_SIZE b.size

instance (block_size : Nat) (b : HBlock) : Decidable (isCandidate block_size b) :=
  inferInstanceAs (Decidable (_ ∧ _))

/-- What the spec promises of the best-fit search over the traversed list
`out`: none exactly when no block of `out` is a candidate; otherwise the
retained (index, size) names a candidate of minimal size, the earliest one
among ties. -/
def bestFitSpec (block_size : Nat) (out : List HBlock) :
    Option (Nat × Nat) → Prop
  | none => ∀ j, j < out.length → ¬ isCandidate block_size (block_at out j)
  | some (i, s) =>
    i < out.length ∧ isCandidate block_size (block_at out i) ∧
      s = (block_at out i).size ∧
      (∀ j, j < out.length → isCandidate block_size (block_at out j) →
        s ≤ (block_at out j).size) ∧
      (∀ j, j < i → isCandidate block_size (block_at out j) →
        s < (block_at out j).size)

/-- The candidate folding of the traversal, separated from the coalescing:
the retained candidate of find_best_fit is this fold over the traversal's
output list. -/
def considerFold (block_size : Nat) : List HBlock → Nat → Option (Nat × Nat) →
    Option (Nat × Nat)
  | [], _, best => best
  | b :: r, idx, best => considerFold block_size r (idx + 1) (consider block_size b idx best)

/-- The loop invariant of the candidate fold: `best` correctly summarizes
the candidates among the first `idx` blocks of `out`. -/
def bestInv (block_size : Nat) (out : List HBlock) (idx : Nat) :
    Option (Nat × Nat) → Prop
  | none => ∀ j, j < idx → j < out.length → ¬ isCandidate block_size (block_at out j)
  | some (i, s) =>
    i < idx ∧ i < out.length ∧ isCandidate block_size (block_at out i) ∧
      s = (block_at out i).size ∧
      (∀ j, j < idx → j < out.length → isCandidate block_size (block_at out j) →
        s ≤ (block_at out j).size) ∧
      (∀ j, j < i → isCandidate block_size (block_at out j) →
        s < (block_at out j).size)

theorem consider_not_cand (bs : Nat) (b : HBlock) (idx : Nat)
    (best : Option (Nat × Nat))
    (h : ¬(b.status = .FREE ∧ bs ≤ TOT_SIZE b.size)) :
    consider bs b idx best = best := by
  unfold consider
  rw [if_neg h]

theorem consider_cand_none (bs : Nat) (b : HBlock) (idx : Nat)
    (h : b.status = .FREE ∧ bs ≤ TOT_SIZE b.size) :
    consider bs b idx none = some (idx, b.size) := by
  unfold consider
  rw [if_pos h]

theorem consider_cand_some_lt (bs : Nat) (b : HBlock) (idx i s : Nat)
    (h : b.status = .FREE ∧ bs ≤ TOT_SIZE b.size) (hl : b.size < s) :
    consider bs b idx (some (i, s)) = some (idx, b.size) := by
  unfold consider
  rw [if_pos h]
  show (if b.size < s then some (idx, b.size) else some (i, s)) = some (idx, b.size)
  rw [if_pos hl]

theorem consider_cand_some_ge (bs : Nat) (b : HBlock) (idx i s : Nat)
    (h : b.status = .FREE ∧ bs ≤ TOT_SIZE b.size) (hl : ¬ b.size < s) :
    consider bs b idx (some (i, s)) = some (i, s) := by
  unfold consider
  rw [if_pos h]
  show (if b.size < s then some (idx, b.size) else some (i, s)) = some (i, s)
  rw [if_neg hl]

theorem drop_eq_block_cons (h : List HBlock) (i : Nat) (hi : i < h.length) :
    h.drop i = block_at h i :: h.drop (i + 1) := by
  induction h generalizing i with
  | nil => simp at hi
  | cons b rest ih =>
    match i with
    | 0 => rfl
    | i + 1 =>
      simp only [List.drop_succ_cons, block_at_cons_succ]
      exact ih i (by simpa using hi)

theorem considerFold_inv (block_size : Nat) (out : List HBlock) :
    ∀ (l : List HBlock) (idx : Nat) (best : Option (Nat × Nat)),
      out.drop idx = l → bestInv block_size out idx best →
      bestFitSpec block_size out (considerFold block_size l idx best) := by
  intro l
  induction l with
  | nil =>
    intro idx best hdrop hinv
    have hlen : out.length ≤ idx := by
      have := List.length_drop idx out
      rw [hdrop] at this
      simp at this
      omega
    match best with
    | none =>
      intro j hj
      exact hinv j (by omega) hj
    | some (i, s) =>
      obtain ⟨h1, h2, h3, h4, h5, h6⟩ := hinv
      exact ⟨h2, h3, h4, fun j hj => h5 j (by omega) hj, h6⟩
  | cons b l' ih =>
    intro idx best hdrop hinv
    have hlt : idx < out.length := by
      have := List.length_drop idx out
      rw [hdrop] at this
      simp at this
      omega
    have hdrop' := drop_eq_block_cons out idx hlt
    rw [hdrop] at hdrop'
    obtain ⟨hb, hl'0⟩ := List.cons_eq_cons.mp hdrop'
    have hl' : out.drop (idx + 1) = l' := hl'0.symm
    show bestFitSpec block_size out
      (considerFold block_size l' (idx + 1) (consider block_size b idx best))
    apply ih (idx + 1) _ hl'
    -- establish the invariant for idx + 1
    subst hb
    by_cases hcand : isCandidate block_size (block_at out idx)
    · have hcond : (block_at out idx).status = .FREE ∧
          block_size ≤ TOT_SIZE (block_at out idx).size := hcand
      match best with
      | none =>
        rw [consider_cand_none _ _ _ hcond]
        exact ⟨by omega, hlt, hcand, rfl,
          fun j hj hjl hc => by
            rcases Nat.lt_or_ge j idx with hji | hji
            · exact absurd hc (hinv j hji hjl)
            · have : j = idx := by omega
              subst this
              exact le_refl _,
          fun j hj hc => absurd hc (hinv j (by omega) (by omega))⟩
      | some (i, s) =>
        obtain ⟨h1, h2, h3, h4, h5, h6⟩ := hinv
        by_cases hlt2 : (block_at out idx).size < s
        · rw [consider_cand_some_lt _ _ _ _ _ hcond hlt2]
          exact ⟨by omega, hlt, hcand, rfl,
            fun j hj hjl hc => by
              rcases Nat.lt_or_ge j idx with hji | hji
              · have := h5 j hji hjl hc
                omega
              · have : j = idx := by omega
                subst this
                exact le_refl _,
            fun j hj hc => by
              have := h5 j (by omega) (by omega) hc
              omega⟩
        · rw [consider_cand_some_ge _ _ _ _ _ hcond hlt2]
          exact ⟨by omega, h2, h3, h4,
            fun j hj hjl hc => by
              rcases Nat.lt_or_ge j idx with hji | hji
              · exact h5 j hji hjl hc
              · have : j = idx := by omega
                subst this
                omega,
            h6⟩
    · have hcond : ¬((block_at out idx).status = .FREE ∧
          block_size ≤ TOT_SIZE (block_at out idx).size) := hcand
      rw [consider_not_cand _ _ _ _ hcond]
      match best with
      | none =>
        intro j hj hjl
        rcases Nat.lt_or_ge j idx with hji | hji
        · exact hinv j hji hjl
        · have : j = idx := by omega
          subst this
          exact hcand
      | some (i, s) =>
        obtain ⟨h1, h2, h3, h4, h5, h6⟩ := hinv
        exact ⟨by omega, h2, h3, h4,
          fun j hj hjl hc => by
            rcases Nat.lt_or_ge j idx with hji | hji
            · exact h5 j hji hjl hc
            · have : j = idx := by omega
              subst this
              exact absurd hc hcand,
          h6⟩

theorem fbfGo_best (block_size : Nat) :
    ∀ (rest : List HBlock) (cur : HBlock) (idx : Nat) (best : Option (Nat × Nat)),
      (fbfGo block_size cur rest idx best).2 =
        considerFold block_size (fbfGo block_size cur rest idx best).1 idx best := by
  intro rest
  induction rest with
  | nil => intro cur idx best; rfl
  | cons c rest' ih =>
    intro cur idx best
    by_cases hm : cur.status = .FREE ∧ c.status = .FREE
    · rw [fbfGo, if_pos hm]
      exact ih _ _ _
    · rw [fbfGo, if_neg hm]
      show (fbfGo block_size c rest' (idx + 1) (consider block_size cur idx best)).2 =
        considerFold block_size
          (cur :: (fbfGo block_size c rest' (idx + 1) (consider block_size cur idx best)).1)
          idx best
      rw [considerFold]
      exact ih _ _ _

/-- find_best_fit satisfies the best-fit specification over the list it
leaves behind. -/
theorem find_best_fit_spec (block_size : Nat) (heap : List HBlock) :
    bestFitSpec block_size (find_best_fit block_size heap).1
      (find_best_fit block_size heap).2 := by
  match heap with
  | [] =>
    intro j hj
    simp [find_best_fit] at hj
  | b :: rest =>
    show bestFitSpec block_size (fbfGo block_size b rest 0 none).1
      (fbfGo block_size b rest 0 none).2
    rw [fbfGo_best]
    apply considerFold_inv
    · rfl
    · intro j hj
      omega

/-! ## Chain preservation through each heap operation -/

theorem request_space_chain (blk : Nat) (h8 : blk % 8 = 0) (hge : META ≤ blk) :
    ∀ (h : List HBlock) (a e : Nat), chainBrk a h e →
      chainBrk a (request_space e h blk).2 (request_space e h blk).1 := by
  intro h
  induction h with
  | nil =>
    intro a e hc
    have he : e = a := hc
    subst he
    refine ⟨rfl, ?_, ?_⟩
    · show (blk - META) % 8 = 0
      unfold META at hge ⊢
      omega
    · show e + blk = e + TOT_SIZE (blk - META)
      rw [TOT_SIZE_sub_META blk h8 hge]
  | cons b rest ih =>
    cases rest with
    | nil =>
      intro a e hc
      obtain ⟨h1, h2, h3⟩ := hc
      have h3' : e = a + TOT_SIZE b.size := h3
      have hTb := TOT_SIZE_eq_of_mod8 b.size h2
      by_cases hf : b.status = .FREE
      · simp only [request_space, if_pos hf]
        have hsz : (b.size + (blk - TOT_SIZE b.size)) % 8 = 0 := by
          have hT8 := TOT_SIZE_mod8 b.size
          omega
        have hTn := TOT_SIZE_eq_of_mod8 _ hsz
        refine ⟨h1, hsz, ?_⟩
        show e + (blk - TOT_SIZE b.size) =
          a + TOT_SIZE (b.size + (blk - TOT_SIZE b.size))
        unfold META at hge hTb hTn
        omega
      · simp only [request_space, if_neg hf]
        refine ⟨h1, h2, ?_, ?_, ?_⟩
        · exact h3'
        · show (blk - META) % 8 = 0
          unfold META at hge ⊢
          omega
        · show e + blk = a + TOT_SIZE b.size + TOT_SIZE (blk - META)
          rw [TOT_SIZE_sub_META blk h8 hge]
          omega
    | cons c rest' =>
      intro a e hc
      obtain ⟨h1, h2, h3⟩ := hc
      exact ⟨h1, h2, ih _ _ h3⟩

theorem set_status_chain (s : BStatus) :
    ∀ (h : List HBlock) (i : Nat) (a e : Nat),
      chainBrk a h e → chainBrk a (set_status h i s) e := by
  intro h
  induction h with
  | nil => intro i a e hc; exact hc
  | cons b rest ih =>
    intro i a e hc
    obtain ⟨h1, h2, h3⟩ := hc
    match i with
    | 0 => exact ⟨h1, h2, h3⟩
    | i + 1 => exact ⟨h1, h2, ih i _ _ h3⟩

theorem set_last_status_chain (s : BStatus) :
    ∀ (h : List HBlock) (a e : Nat),
      chainBrk a h e → chainBrk a (set_last_status h s) e := by
  intro h
  induction h with
  | nil => intro a e hc; exact hc
  | cons b rest ih =>
    intro a e hc
    obtain ⟨h1, h2, h3⟩ := hc
    cases rest with
    | nil => exact ⟨h1, h2, h3⟩
    | cons c rest' => exact ⟨h1, h2, ih _ _ h3⟩

theorem split_at_chain (h : List HBlock) (i blk : Nat) (a e : Nat)
    (hi : i < h.length) (h8 : blk % 8 = 0) (hge : META ≤ blk)
    (hle : blk ≤ (block_at h i).size)
    (hc : chainBrk a h e) : chainBrk a (split_at h i blk) e := by
  have hdec := take_cons_drop h i hi
  have hc' : chainBrk a (h.take i ++ block_at h i :: h.drop (i + 1)) e := by
    rw [hdec]
    exact hc
  obtain ⟨m, hm1, hm2⟩ := (chainBrk_append _ _ _ _).1 hc'
  obtain ⟨hb1, hb2, hb3⟩ := hm2
  unfold split_at
  apply (chainBrk_append _ _ _ _).2
  refine ⟨m, hm1, ?_⟩
  have hs1 : (blk - META) % 8 = 0 := by unfold META at hge ⊢; omega
  have hs2 : ((block_at h i).size - blk) % 8 = 0 := by
    unfold META at hge
    omega
  refine ⟨hb1, hs1, ?_, ?_, ?_⟩
  · show (block_at h i).addr + blk = m + TOT_SIZE (blk - META)
    rw [TOT_SIZE_sub_META blk h8 hge]
    omega
  · exact hs2
  · have hT1 := TOT_SIZE_eq_of_mod8 _ hs2
    have hT2 := TOT_SIZE_eq_of_mod8 _ hb2
    have : m + TOT_SIZE (blk - META) + TOT_SIZE ((block_at h i).size - blk) =
        m + TOT_SIZE (block_at h i).size := by
      rw [TOT_SIZE_sub_META blk h8 hge]
      unfold META at hT1 hT2 hge
      omega
    rw [this]
    exact hb3

theorem find_best_fit_chain (blk : Nat) (heap : List HBlock) (a e : Nat)
    (hc : chainBrk a heap e) :
    chainBrk a (find_best_fit blk heap).1 e := by
  cases heap with
  | nil => exact hc
  | cons b rest => exact fbfGo_chain blk a e rest b 0 none hc

theorem os_free_sbrk_chain (st : AllocState) (p : Nat)
    (hw : WF st) : WF (os_free_sbrk st p) := by
  unfold os_free_sbrk
  cases hf : findIdx st.heap p with
  | none => exact hw
  | some i =>
    obtain ⟨hi, _, _⟩ := (findIdx_eq_some_iff _ _ _).1 hf
    show chainBrk 0 (st.heap.take i ++ _) st.brk
    have hdec := take_cons_drop st.heap i hi
    have hc' : chainBrk 0 (st.heap.take i ++ block_at st.heap i :: st.heap.drop (i + 1))
        st.brk := by
      rw [hdec]
      exact hw
    obtain ⟨m, hm1, hm2⟩ := (chainBrk_append _ _ _ _).1 hc'
    apply (chainBrk_append _ _ _ _).2
    refine ⟨m, hm1, ?_⟩
    apply coalesceRun_chain
    obtain ⟨hb1, hb2, hb3⟩ := hm2
    exact ⟨hb1, hb2, hb3⟩

theorem os_malloc_mmap_WF (st : AllocState) (size : Nat) (hw : WF st) :
    WF (os_malloc_mmap st size).1 := hw

theorem heap_init_WF (st : AllocState) (hw : WF st) : WF (heap_init st) := by
  unfold heap_init WF
  exact request_space_chain INITIAL_HEAP_SIZE (by norm_num [INITIAL_HEAP_SIZE])
    (by norm_num [INITIAL_HEAP_SIZE, META]) st.heap 0 st.brk hw

theorem os_malloc_sbrk_WF (st : AllocState) (size : Nat) (hw : WF st) :
    WF (os_malloc_sbrk st size).1 := by
  have h8 : TOT_SIZE size % 8 = 0 := TOT_SIZE_mod8 size
  have hge : META ≤ TOT_SIZE size := META_le_TOT_SIZE size
  unfold os_malloc_sbrk
  set st1 := if st.heap.isEmpty then heap_init st else st with hst1
  have hw1 : WF st1 := by
    rw [hst1]
    split
    · exact heap_init_WF st hw
    · exact hw
  have hchain : chainBrk 0 (find_best_fit (TOT_SIZE size) st1.heap).1 st1.brk :=
    find_best_fit_chain _ _ _ _ hw1
  have hspec := find_best_fit_spec (TOT_SIZE size) st1.heap
  cases hfb : (find_best_fit (TOT_SIZE size) st1.heap).2 with
  | none =>
    simp only [hfb]
    show WF { st1 with
      brk := (request_space st1.brk (find_best_fit (TOT_SIZE size) st1.heap).1
        (TOT_SIZE size)).1,
      heap := set_last_status
        (request_space st1.brk (find_best_fit (TOT_SIZE size) st1.heap).1
          (TOT_SIZE size)).2 .ALLOC }
    exact set_last_status_chain _ _ _ _
      (request_space_chain _ h8 hge _ _ _ hchain)
  | some q =>
    obtain ⟨i, s⟩ := q
    rw [hfb] at hspec
    obtain ⟨hlt, hcand, hs, _, _⟩ := hspec
    simp only [hfb]
    show WF { st1 with
      heap := if TOT_SIZE size < (block_at (find_best_fit (TOT_SIZE size) st1.heap).1 i).size
        then split_at (set_status (find_best_fit (TOT_SIZE size) st1.heap).1 i .ALLOC) i
          (TOT_SIZE size)
        else set_status (find_best_fit (TOT_SIZE size) st1.heap).1 i .ALLOC }
    split
    · rename_i hsplit
      apply split_at_chain
      · rw [set_status_length]
        exact hlt
      · exact h8
      · exact hge
      · rw [block_at_set_status_eq _ _ _ hlt]
        exact le_of_lt hsplit
      · exact set_status_chain _ _ _ _ _ hchain
    · exact set_status_chain _ _ _ _ _ hchain

theorem os_malloc_WF (st : AllocState) (size : Nat) (hw : WF st) :
    WF (os_malloc st size).1 := by
  unfold os_malloc
  split
  · exact hw
  · show WF ((if TOT_SIZE (ALIGN size) < st.threshold
      then os_malloc_sbrk st (ALIGN size) else os_malloc_mmap st (ALIGN size)).1)
    split
    · exact os_malloc_sbrk_WF _ _ hw
    · exact os_malloc_mmap_WF _ _ hw

theorem os_free_mmap_WF (st : AllocState) (t : Nat) (hw : WF st) :
    WF (os_free_mmap st t) := hw

theorem os_free_WF (st : AllocState) (p : Ptr) (hw : WF st) :
    WF (os_free st p) := by
  unfold os_free
  cases p with
  | null => exact hw
  | hp a => exact os_free_sbrk_chain _ _ hw
  | mp t => exact os_free_mmap_WF _ _ hw

theorem os_calloc_WF (st : AllocState) (nmemb size : Nat) (hw : WF st) :
    WF (os_calloc st nmemb size).1 := by
  unfold os_calloc
  exact os_malloc_WF { st with threshold := PAGE_SIZE } _ hw

theorem os_realloc_mmap_WF (st : AllocState) (t size : Nat) (hw : WF st) :
    WF (os_realloc_mmap st t size).1 := by
  unfold os_realloc_mmap
  exact os_malloc_WF st size hw

theorem chainBrk_head_status (a e : Nat) (x : HBlock) (s : BStatus)
    (l : List HBlock) (hc : chainBrk a (x :: l) e) :
    chainBrk a ({ x with status := s } :: l) e := by
  obtain ⟨h1, h2, h3⟩ := hc
  exact ⟨h1, h2, h3⟩

theorem block_at_append_mid (xs : List HBlock) (b : HBlock) (l : List HBlock) :
    block_at (xs ++ b :: l) xs.length = b := by
  rw [block_at_append_right _ _ _ (le_refl _)]
  simp [block_at]

theorem block_at_append_mid' (xs : List HBlock) (b : HBlock) (l : List HBlock)
    (i : Nat) (hx : xs.length = i) : block_at (xs ++ b :: l) i = b := by
  subst hx
  exact block_at_append_mid xs b l

theorem os_realloc_sbrk_WF (st : AllocState) (a size : Nat) (hw : WF st) :
    WF (os_realloc_sbrk st a size).1 := by
  have h8 : TOT_SIZE size % 8 = 0 := TOT_SIZE_mod8 size
  have hge : META ≤ TOT_SIZE size := META_le_TOT_SIZE size
  unfold os_realloc_sbrk
  cases hf : findIdx st.heap a with
  | none =>
    simp only [hf]
    exact hw
  | some i =>
    simp only [hf]
    obtain ⟨hi, haddr, hfirst⟩ := (findIdx_eq_some_iff _ _ _).1 hf
    have hlen_take : (st.heap.take i).length = i :=
      length_take_of_lt _ _ (le_of_lt hi)
    set bi := block_at st.heap i with hbi
    set g := growLoop (TOT_SIZE size) { bi with status := .FREE }
      (st.heap.drop (i + 1)) with hgdef
    -- chain of the post-grow heap
    have hdec := take_cons_drop st.heap i hi
    have hw' : chainBrk 0 (st.heap.take i ++ bi :: st.heap.drop (i + 1)) st.brk := by
      rw [hbi, hdec]
      exact hw
    obtain ⟨m, hm1, hm2⟩ := (chainBrk_append _ _ _ _).1 hw'
    have hmid_free : chainBrk m
        ({ bi with status := .FREE } :: st.heap.drop (i + 1)) st.brk :=
      chainBrk_head_status _ _ _ _ _ hm2
    have hgrow : chainBrk m (g.1 :: g.2) st.brk := by
      rw [hgdef]
      exact growLoop_chain (TOT_SIZE size) m st.brk (st.heap.drop (i + 1))
        { bi with status := .FREE } hmid_free
    have hb1chain : chainBrk m ({ g.1 with status := .ALLOC } :: g.2) st.brk :=
      chainBrk_head_status _ _ _ _ _ hgrow
    have hchain1 : chainBrk 0
        (st.heap.take i ++ { g.1 with status := .ALLOC } :: g.2) st.brk :=
      (chainBrk_append _ _ _ _).2 ⟨m, hm1, hb1chain⟩
    have hbamid : block_at (st.heap.take i ++ { g.1 with status := .ALLOC } :: g.2) i =
        { g.1 with status := .ALLOC } :=
      block_at_append_mid' _ _ _ _ hlen_take
    have hilen1 : i < (st.heap.take i ++ { g.1 with status := .ALLOC } :: g.2).length := by
      rw [List.length_append, hlen_take, List.length_cons]
      omega
    split
    · -- promotion to the mapped region
      show WF (os_free_sbrk (os_malloc_mmap st size).1 a)
      exact os_free_sbrk_chain _ _ (os_malloc_mmap_WF st size hw)
    · split
      · -- in-place success, with a split when strictly larger
        split
        · rename_i hle hsplit
          refine split_at_chain _ i (TOT_SIZE size) 0 st.brk hilen1 h8 hge ?_ hchain1
          rw [hbamid]
          exact le_of_lt hsplit
        · exact hchain1
      · split
        · -- last block: the suffix after the grow attempt is empty
          rename_i hle hnil
          rw [hnil] at hchain1
          have hchain3 : chainBrk 0
              (st.heap.take i ++ [{ g.1 with status := .FREE }]) st.brk := by
            obtain ⟨m', hm'1, hm'2⟩ := (chainBrk_append _ _ _ _).1 hchain1
            exact (chainBrk_append _ _ _ _).2
              ⟨m', hm'1, chainBrk_head_status _ _ _ _ _ hm'2⟩
          have hchainfb := find_best_fit_chain (TOT_SIZE size) _ _ _ hchain3
          cases hfb2 : (find_best_fit (TOT_SIZE size)
              (st.heap.take i ++ [{ g.1 with status := .FREE }])).2 with
          | none =>
            simp only [hfb2]
            show WF { st with
              brk := (request_space st.brk
                (find_best_fit (TOT_SIZE size)
                  (st.heap.take i ++ [{ g.1 with status := .FREE }])).1
                (TOT_SIZE size)).1,
              heap := set_last_status
                (request_space st.brk
                  (find_best_fit (TOT_SIZE size)
                    (st.heap.take i ++ [{ g.1 with status := .FREE }])).1
                  (TOT_SIZE size)).2 .ALLOC }
            exact set_last_status_chain _ _ _ _
              (request_space_chain _ h8 hge _ _ _ hchainfb)
          | some q =>
            obtain ⟨j, t⟩ := q
            simp only [hfb2]
            apply os_free_sbrk_chain
            exact set_status_chain _ _ _ _ _ hchainfb
        · -- relocation path
          rename_i hle hnenil
          have hold8 : bi.size % 8 = 0 := by
            rw [hbi]
            exact chainBrk_size_mod8 _ _ _ hw i hi
          have hT8 : TOT_SIZE bi.size % 8 = 0 := TOT_SIZE_mod8 _
          have hTge : META ≤ TOT_SIZE bi.size := META_le_TOT_SIZE _
          have hchain5 : chainBrk 0
              (if g.1.size ≠ bi.size
                then split_at (st.heap.take i ++ { g.1 with status := .ALLOC } :: g.2) i
                  (TOT_SIZE bi.size)
                else st.heap.take i ++ { g.1 with status := .ALLOC } :: g.2)
              st.brk := by
            split
            · rename_i hne
              apply split_at_chain _ _ _ _ _ hilen1 hT8 hTge _ hchain1
              rw [hbamid]
              show TOT_SIZE bi.size ≤ g.1.size
              rcases hgs0 : growLoop_size (TOT_SIZE size)
                  { bi with status := .FREE } (st.heap.drop (i + 1)) with hgs | hgs
              · rw [← hgdef] at hgs
                exact absurd hgs hne
              · rw [← hgdef] at hgs
                have := TOT_SIZE_eq_of_mod8 _ hold8
                simp only [] at hgs
                omega
            · exact hchain1
          apply os_free_sbrk_chain
          apply os_malloc_sbrk_WF
          exact hchain5

theorem os_realloc_WF (st : AllocState) (p : Ptr) (size : Nat) (hw : WF st) :
    WF (os_realloc st p size).1 := by
  cases p with
  | null =>
    show WF (os_malloc st size).1
    exact os_malloc_WF _ _ hw
  | mp t =>
    show WF ((if size = 0 then (os_free st (.mp t), Ptr.null)
      else os_realloc_mmap st t (ALIGN size)).1)
    split
    · exact os_free_WF _ _ hw
    · exact os_realloc_mmap_WF _ _ _ hw
  | hp a =>
    show WF ((if size = 0 then (os_free st (.hp a), Ptr.null)
      else
        match findIdx st.heap a with
        | some i =>
          if (block_at st.heap i).status = .FREE then (st, Ptr.null)
          else os_realloc_sbrk st a (ALIGN size)
        | none => os_realloc_sbrk st a (ALIGN size)).1)
    split
    · exact os_free_WF _ _ hw
    · cases hf : findIdx st.heap a with
      | some i =>
        simp only [hf]
        split
        · exact hw
        · exact os_realloc_sbrk_WF _ _ _ hw
      | none =>
        simp only [hf]
        exact os_realloc_sbrk_WF _ _ _ hw

theorem step_WF (st : AllocState) (e : Event) (hw : WF st) : WF (step st e) := by
  cases e with
  | malloc n => exact os_malloc_WF _ _ hw
  | free p => exact os_free_WF _ _ hw
  | calloc a b => exact os_calloc_WF _ _ _ hw
  | realloc p n => exact os_realloc_WF _ _ _ hw

theorem initState_WF : WF initState := rfl

theorem execTrace_WF (evs : List Event) : WF (execTrace evs) := by
  unfold execTrace
  induction evs using List.reverseRecOn with
  | nil => exact initState_WF
  | append_singleton evs e ih =>
    rw [List.foldl_append]
    exact step_WF _ _ ih

/-! ## Pointwise description of split_at, and noAdjFree preservation -/

theorem block_at_take (h : List HBlock) :
    ∀ (i j : Nat), j < i → block_at (h.take i) j = block_at h j := by
  induction h with
  | nil => intro i j _; simp
  | cons b rest ih =>
    intro i j hj
    match i, j with
    | i + 1, 0 => rfl
    | i + 1, j + 1 =>
      simp only [List.take_succ_cons, block_at_cons_succ]
      exact ih i j (by omega)

theorem block_at_drop (h : List HBlock) :
    ∀ (n k : Nat), block_at (h.drop n) k = block_at h (n + k) := by
  induction h with
  | nil =>
    intro n k
    rw [block_at_default _ _ (by simp), block_at_default _ _ (by simp)]
  | cons b rest ih =>
    intro n k
    match n with
    | 0 => simp
    | n + 1 =>
      simp only [List.drop_succ_cons]
      rw [ih n k]
      have he : n + 1 + k = (n + k) + 1 := by omega
      rw [he, block_at_cons_succ]

theorem split_at_length (h : List HBlock) (i blk : Nat) (hi : i < h.length) :
    (split_at h i blk).length = h.length + 1 := by
  unfold split_at
  simp [length_take_of_lt h i (le_of_lt hi)]
  omega

theorem split_at_block_lt (h : List HBlock) (i blk j : Nat) (hi : i < h.length)
    (hj : j < i) : block_at (split_at h i blk) j = block_at h j := by
  unfold split_at
  rw [block_at_append_left _ _ _ (by rw [length_take_of_lt h i (le_of_lt hi)]; omega)]
  exact block_at_take h i j hj

theorem split_at_block_i (h : List HBlock) (i blk : Nat) (hi : i < h.length) :
    block_at (split_at h i blk) i =
      ⟨(block_at h i).addr, blk - META, (block_at h i).status⟩ := by
  unfold split_at
  rw [block_at_append_right _ _ _ (by rw [length_take_of_lt h i (le_of_lt hi)])]
  rw [length_take_of_lt h i (le_of_lt hi)]
  simp [block_at]

theorem split_at_block_succ (h : List HBlock) (i blk : Nat) (hi : i < h.length) :
    block_at (split_at h i blk) (i + 1) =
      ⟨(block_at h i).addr + blk, (block_at h i).size - blk, .FREE⟩ := by
  unfold split_at
  rw [block_at_append_right _ _ _
    (by rw [length_take_of_lt h i (le_of_lt hi)]; omega)]
  rw [length_take_of_lt h i (le_of_lt hi)]
  have : i + 1 - i = 1 := by omega
  rw [this]
  simp [block_at]

theorem split_at_block_gt (h : List HBlock) (i blk j : Nat) (hi : i < h.length)
    (hj : i + 1 < j) : block_at (split_at h i blk) j = block_at h (j - 1) := by
  unfold split_at
  rw [block_at_append_right _ _ _
    (by rw [length_take_of_lt h i (le_of_lt hi)]; omega)]
  rw [length_take_of_lt h i (le_of_lt hi)]
  match hd : j - i with
  | 0 => omega
  | 1 => omega
  | k + 2 =>
    simp only [block_at_cons_succ]
    rw [block_at_drop]
    have : i + 1 + k = j - 1 := by omega
    rw [this]

theorem noAdjFree_set_alloc (l : List HBlock) (i : Nat) (hn : noAdjFree l) :
    noAdjFree (set_status l i .ALLOC) := by
  intro j hj
  rw [set_status_length] at hj
  rintro ⟨hj1, hj2⟩
  by_cases hji : j = i
  · subst hji
    rw [block_at_set_status_eq _ _ _ (by omega)] at hj1
    simp at hj1
  · rw [block_at_set_status_ne _ _ _ _ hji] at hj1
    by_cases hji2 : j + 1 = i
    · subst hji2
      rw [block_at_set_status_eq _ _ _ (by omega)] at hj2
      simp at hj2
    · rw [block_at_set_status_ne _ _ _ _ hji2] at hj2
      exact hn j hj ⟨hj1, hj2⟩

theorem noAdjFree_split_alloc (out : List HBlock) (i blk : Nat)
    (hi : i < out.length)
    (hnext : i + 1 < out.length → (block_at out (i + 1)).status ≠ .FREE)
    (hn : noAdjFree out) :
    noAdjFree (split_at (set_status out i .ALLOC) i blk) := by
  have hlen2 : (set_status out i .ALLOC).length = out.length := set_status_length _ _ _
  have hi2 : i < (set_status out i .ALLOC).length := by omega
  intro j hj
  rw [split_at_length _ _ _ hi2, hlen2] at hj
  rintro ⟨hj1, hj2⟩
  rcases Nat.lt_trichotomy j i with hji | hji | hji
  · -- j < i : j + 1 ≤ i
    rw [split_at_block_lt _ _ _ _ hi2 hji] at hj1
    rcases Nat.lt_or_ge (j + 1) i with hji2 | hji2
    · rw [split_at_block_lt _ _ _ _ hi2 hji2] at hj2
      rw [block_at_set_status_ne _ _ _ _ (by omega)] at hj1
      rw [block_at_set_status_ne _ _ _ _ (by omega)] at hj2
      exact hn j (by omega) ⟨hj1, hj2⟩
    · have : j + 1 = i := by omega
      rw [this, split_at_block_i _ _ _ hi2] at hj2
      simp only [] at hj2
      rw [block_at_set_status_eq _ _ _ (by omega)] at hj2
      simp at hj2
  · -- j = i : the pair (B1, B2); B1 carries the ALLOC status
    subst hji
    rw [split_at_block_i _ _ _ hi2] at hj1
    simp only [] at hj1
    rw [block_at_set_status_eq _ _ _ (by omega)] at hj1
    simp at hj1
  · -- j > i
    rcases Nat.lt_or_ge (i + 1) j with hji2 | hji2
    · -- both j and j+1 beyond the split pair
      rw [split_at_block_gt _ _ _ _ hi2 hji2] at hj1
      rw [split_at_block_gt _ _ _ _ hi2 (by omega)] at hj2
      have : j + 1 - 1 = (j - 1) + 1 := by omega
      rw [this] at hj2
      rw [block_at_set_status_ne _ _ _ _ (by omega)] at hj1
      rw [block_at_set_status_ne _ _ _ _ (by omega)] at hj2
      exact hn (j - 1) (by omega) ⟨hj1, hj2⟩
    · -- j = i + 1 : the pair (B2, old successor)
      have : j = i + 1 := by omega
      subst this
      rw [split_at_block_gt _ _ _ _ hi2 (by omega)] at hj2
      have h2 : i + 1 + 1 - 1 = i + 1 := by omega
      rw [h2] at hj2
      rw [block_at_set_status_ne _ _ _ _ (by omega)] at hj2
      exact hnext (by omega) hj2

theorem request_space_ne_nil (e blk : Nat) :
    ∀ (h : List HBlock), (request_space e h blk).2 ≠ [] := by
  intro h
  induction h with
  | nil => simp [request_space]
  | cons b rest ih =>
    cases rest with
    | nil =>
      by_cases hf : b.status = .FREE
      · simp [request_space, hf]
      · simp [request_space, hf]
    | cons c rest' =>
      simp only [request_space]
      simp

theorem set_last_status_cons_of_ne_nil (x : HBlock) (l : List HBlock)
    (s : BStatus) (hl : l ≠ []) :
    set_last_status (x :: l) s = x :: set_last_status l s := by
  cases l with
  | nil => exact absurd rfl hl
  | cons y ys => rfl

theorem rsp_alloc_noAdjFree (blk e : Nat) :
    ∀ (h : List HBlock), noAdjFree h →
      noAdjFree (set_last_status (request_space e h blk).2 .ALLOC) := by
  intro h
  induction h with
  | nil =>
    intro _
    exact noAdjFree_singleton _
  | cons b rest ih =>
    intro hn
    cases rest with
    | nil =>
      by_cases hf : b.status = .FREE
      · simp only [request_space, if_pos hf]
        exact noAdjFree_singleton _
      · simp only [request_space, if_neg hf]
        show noAdjFree [b, { status := .ALLOC, addr := e, size := blk - META }]
        intro j hj
        match j with
        | 0 =>
          rintro ⟨_, h2⟩
          simp [block_at] at h2
        | j + 1 =>
          intro _
          simp only [List.length_cons, List.length_nil] at hj
          omega
    | cons c rest' =>
      have hpair := (noAdjFree_cons b (c :: rest')).1 hn
      simp only [request_space]
      rw [set_last_status_cons_of_ne_nil _ _ _ (request_space_ne_nil e blk (c :: rest'))]
      rw [noAdjFree_cons]
      refine ⟨?_, ih hpair.2⟩
      intro hne hff
      -- head of the set_last_status list
      have hpair0 : ¬(b.status = .FREE ∧ c.status = .FREE) := by
        have := hpair.1 (by simp)
        simpa [block_at] using this
      cases rest' with
      | nil =>
        by_cases hcf : c.status = .FREE
        · simp only [request_space, if_pos hcf, set_last_status, block_at] at hff
          simp at hff
        · simp only [request_space, if_neg hcf] at hff
          rw [set_last_status_cons_of_ne_nil _ _ _ (by simp)] at hff
          rw [block_at_cons_zero] at hff
          exact hpair0 ⟨hff.1, hff.2⟩
      | cons d rest'' =>
        simp only [request_space] at hff
        rw [set_last_status_cons_of_ne_nil _ _ _
          (request_space_ne_nil e blk (d :: rest''))] at hff
        rw [block_at_cons_zero] at hff
        exact hpair0 ⟨hff.1, hff.2⟩

theorem find_best_fit_noAdjFree (blk : Nat) (heap : List HBlock) :
    noAdjFree (find_best_fit blk heap).1 := by
  cases heap with
  | nil => exact noAdjFree_nil
  | cons b rest => exact fbfGo_noAdjFree blk rest b 0 none

/-- C4 (amended): the full best-fit pass of a heap malloc repairs the heap
list, and the allocation itself (candidate marking, split, or tail
extension) preserves it: after any os_malloc_sbrk, from any starting state,
no two consecutive heap blocks are both FREE. -/
theorem C4_malloc_restores_no_adjacent_free (st : AllocState) (size : Nat) :
    noAdjFree ((os_malloc_sbrk st size).1.heap) := by
  unfold os_malloc_sbrk
  set st1 := if st.heap.isEmpty then heap_init st else st with hst1
  have hout : noAdjFree (find_best_fit (TOT_SIZE size) st1.heap).1 :=
    find_best_fit_noAdjFree _ _
  have hspec := find_best_fit_spec (TOT_SIZE size) st1.heap
  cases hfb : (find_best_fit (TOT_SIZE size) st1.heap).2 with
  | none =>
    simp only [hfb]
    show noAdjFree (set_last_status
      (request_space st1.brk (find_best_fit (TOT_SIZE size) st1.heap).1
        (TOT_SIZE size)).2 .ALLOC)
    exact rsp_alloc_noAdjFree _ _ _ hout
  | some q =>
    obtain ⟨i, s⟩ := q
    rw [hfb] at hspec
    obtain ⟨hlt, hcand, hs, _, _⟩ := hspec
    simp only [hfb]
    show noAdjFree (if TOT_SIZE size <
        (block_at (find_best_fit (TOT_SIZE size) st1.heap).1 i).size
      then split_at (set_status (find_best_fit (TOT_SIZE size) st1.heap).1 i .ALLOC) i
        (TOT_SIZE size)
      else set_status (find_best_fit (TOT_SIZE size) st1.heap).1 i .ALLOC)
    split
    · apply noAdjFree_split_alloc _ _ _ hlt _ hout
      intro hnext hfree
      exact hout i hnext ⟨hcand.1, hfree⟩
    · exact noAdjFree_set_alloc _ _ hout

/-- C5: in every state reachable by a sequence of public calls, the heap
list's next links realize the address arithmetic — each successor sits
exactly total(size) bytes after its predecessor — and the addresses are
strictly increasing along the list. -/
theorem C5_heap_list_adjacency (evs : List Event) :
    adjacent_ok (execTrace evs).heap ∧ addr_increasing (execTrace evs).heap := by
  have hw := execTrace_WF evs
  exact ⟨chainBrk_adjacent _ _ _ hw, chainBrk_addr_increasing _ _ _ hw⟩

/-! ## The tail-extension path of heap realloc (claim C1) -/

theorem fbfGo_last_alloc (blk : Nat) (p l : HBlock) (hp : p.status = .ALLOC) :
    ∀ (xs : List HBlock) (cur : HBlock) (idx : Nat) (best : Option (Nat × Nat)),
      ∃ zs, (fbfGo blk cur (xs ++ [p, l]) idx best).1 = zs ++ [p, l] := by
  intro xs
  induction xs with
  | nil =>
    intro cur idx best
    have hm2 : ¬(p.status = .FREE ∧ l.status = .FREE) := by
      rw [hp]
      simp
    by_cases hm : cur.status = .FREE ∧ p.status = .FREE
    · rw [hp] at hm
      simp at hm
    · refine ⟨[cur], ?_⟩
      show (fbfGo blk cur ([p, l]) idx best).1 = [cur] ++ [p, l]
      rw [fbfGo, if_neg hm]
      show cur :: (fbfGo blk p [l] (idx + 1) (consider blk cur idx best)).1 =
        [cur] ++ [p, l]
      rw [fbfGo, if_neg hm2]
      rfl
  | cons x xs' ih =>
    intro cur idx best
    rw [List.cons_append]
    by_cases hm : cur.status = .FREE ∧ x.status = .FREE
    · rw [fbfGo, if_pos hm]
      exact ih _ _ _
    · rw [fbfGo, if_neg hm]
      obtain ⟨zs, hzs⟩ := ih x (idx + 1) (consider blk cur idx best)
      refine ⟨cur :: zs, ?_⟩
      show cur :: (fbfGo blk x (xs' ++ [p, l]) (idx + 1) (consider blk cur idx best)).1 =
        cur :: zs ++ [p, l]
      rw [hzs]
      rfl

theorem find_best_fit_last_alloc (blk : Nat) (p l : HBlock) (hp : p.status = .ALLOC)
    (ys : List HBlock) :
    ∃ zs, (find_best_fit blk (ys ++ [p, l])).1 = zs ++ [p, l] := by
  cases ys with
  | nil =>
    have hm2 : ¬(p.status = .FREE ∧ l.status = .FREE) := by
      rw [hp]
      simp
    refine ⟨[], ?_⟩
    show (fbfGo blk p [l] 0 none).1 = [] ++ [p, l]
    rw [fbfGo, if_neg hm2]
    rfl
  | cons y ys' =>
    show ∃ zs, (fbfGo blk y (ys' ++ [p, l]) 0 none).1 = zs ++ [p, l]
    exact fbfGo_last_alloc blk p l hp ys' y 0 none

theorem request_space_last_free (blk e : Nat) (l : HBlock) (hl : l.status = .FREE) :
    ∀ (xs : List HBlock),
      request_space e (xs ++ [l]) blk =
        (e + (blk - TOT_SIZE l.size),
         xs ++ [{ l with size := l.size + (blk - TOT_SIZE l.size) }]) := by
  intro xs
  induction xs with
  | nil => simp [request_space, hl]
  | cons x xs' ih =>
    obtain ⟨z, zs, hzzs⟩ : ∃ z zs, xs' ++ [l] = z :: zs := by
      cases hq : xs' ++ [l] with
      | nil => simp at hq
      | cons z zs => exact ⟨z, zs, rfl⟩
    show request_space e (x :: (xs' ++ [l])) blk = _
    rw [hzzs]
    show (let r := request_space e (z :: zs) blk
      ((r.1, x :: r.2) : Nat × List HBlock)) =
      (e + (blk - TOT_SIZE l.size),
        (x :: xs') ++ [{ l with size := l.size + (blk - TOT_SIZE l.size) }])
    rw [← hzzs, ih]
    simp

theorem set_status_last_eq (h : List HBlock) (i : Nat) (s : BStatus)
    (hi : i < h.length) (hlast : i + 1 = h.length) :
    set_status h i s = h.take i ++ [{ block_at h i with status := s }] := by
  have hdec := take_cons_drop h i hi
  have hdrop : h.drop (i + 1) = [] := by
    rw [hlast]
    exact List.drop_length h
  have h1 := set_status_append_at (h.take i) (block_at h i) (h.drop (i + 1)) s
  rw [hdec] at h1
  rw [length_take_of_lt h i (le_of_lt hi)] at h1
  rw [hdrop] at h1
  exact h1

/-- C1 (amended): heap realloc of a last block B (B.next null) whose in-place
grow fails, when best-fit over the list (with B freed) finds no candidate
AND B's predecessor is not FREE (so the search pass cannot absorb B into an
earlier free run): the heap is extended, the break advances by exactly the
missing amount, the final heap ends with B itself ({addr = B's header,
total footprint = bs, ALLOC}), and the caller gets B's original payload
pointer back. -/
theorem C1_realloc_tail_extension (st : AllocState) (a size i : Nat)
    (hw : WF st)
    (hfind : findIdx st.heap a = some i)
    (hlast : i + 1 = st.heap.length)
    (hpred : i = 0 ∨ (block_at st.heap (i - 1)).status = .ALLOC)
    (hth : TOT_SIZE size < st.threshold)
    (hgrow : TOT_SIZE (block_at st.heap i).size < TOT_SIZE size)
    (hnocand : (find_best_fit (TOT_SIZE size) (set_status st.heap i .FREE)).2 = none) :
    (os_realloc_sbrk st a size).2 = Ptr.hp a ∧
    (os_realloc_sbrk st a size).1.brk =
      st.brk + (TOT_SIZE size - TOT_SIZE (block_at st.heap i).size) ∧
    st.brk < (os_realloc_sbrk st a size).1.brk ∧
    (∃ pre, (os_realloc_sbrk st a size).1.heap =
      pre ++ [⟨a, TOT_SIZE size - META, .ALLOC⟩]) := by
  obtain ⟨hi, haddr, _⟩ := (findIdx_eq_some_iff _ _ _).1 hfind
  have hdrop : st.heap.drop (i + 1) = [] := by
    rw [hlast]
    exact List.drop_length st.heap
  have hsz8 : (block_at st.heap i).size % 8 = 0 :=
    chainBrk_size_mod8 _ _ _ hw i hi
  have hTbi : TOT_SIZE (block_at st.heap i).size = (block_at st.heap i).size + META :=
    TOT_SIZE_eq_of_mod8 _ hsz8
  have h8 : TOT_SIZE size % 8 = 0 := TOT_SIZE_mod8 size
  have hMge : META ≤ TOT_SIZE size := META_le_TOT_SIZE size
  -- reduce os_realloc_sbrk to the request_space branch
  have hkey : os_realloc_sbrk st a size =
      ({ st with
          brk := (request_space st.brk
            (find_best_fit (TOT_SIZE size) (set_status st.heap i .FREE)).1
            (TOT_SIZE size)).1,
          heap := set_last_status
            (request_space st.brk
              (find_best_fit (TOT_SIZE size) (set_status st.heap i .FREE)).1
              (TOT_SIZE size)).2 .ALLOC }, Ptr.hp a) := by
    unfold os_realloc_sbrk
    simp only [hfind]
    rw [if_neg (by omega)]
    rw [hdrop]
    show (if TOT_SIZE size ≤
        TOT_SIZE ({ (growLoop (TOT_SIZE size)
          { block_at st.heap i with status := .FREE } []).1 with
            status := BStatus.ALLOC }).size
      then _ else _) = _
    rw [growLoop]
    show (if TOT_SIZE size ≤ TOT_SIZE (block_at st.heap i).size
      then _ else _) = _
    rw [if_neg (by omega)]
    show (if ([] : List HBlock) = [] then _ else _) = _
    rw [if_pos rfl]
    have he2 : (List.take i st.heap ++
        [({ addr := (block_at st.heap i).addr, size := (block_at st.heap i).size,
            status := BStatus.FREE } : HBlock)]) = set_status st.heap i .FREE := by
      rw [set_status_last_eq st.heap i .FREE hi hlast]
    rw [he2]
    simp only [hnocand]
  rw [hkey]
  -- the best-fit pass leaves the freed tail block as the last block
  obtain ⟨zs, hout⟩ : ∃ zs, (find_best_fit (TOT_SIZE size)
      (set_status st.heap i .FREE)).1 =
      zs ++ [{ block_at st.heap i with status := .FREE }] := by
    rw [set_status_last_eq st.heap i .FREE hi hlast]
    rcases Nat.eq_zero_or_pos i with h0 | hipos
    · subst h0
      refine ⟨[], ?_⟩
      rfl
    · have hA : (block_at st.heap (i - 1)).status = .ALLOC := by
        rcases hpred with h0 | hA
        · omega
        · exact hA
      have hi1 : i - 1 < st.heap.length := by omega
      have htk : st.heap.take i = st.heap.take (i - 1) ++ [block_at st.heap (i - 1)] := by
        have h := take_succ_block st.heap (i - 1) hi1
        rw [show i - 1 + 1 = i from by omega] at h
        exact h
      rw [htk, List.append_assoc]
      have hcat : ([block_at st.heap (i - 1)] ++
          [{ block_at st.heap i with status := BStatus.FREE }]) =
          [block_at st.heap (i - 1), { block_at st.heap i with status := BStatus.FREE }] := rfl
      rw [hcat]
      obtain ⟨zs, hzs⟩ := find_best_fit_last_alloc (TOT_SIZE size) _ _ hA
        (st.heap.take (i - 1))
      refine ⟨zs ++ [block_at st.heap (i - 1)], ?_⟩
      rw [hzs]
      simp
  have hreq := request_space_last_free (TOT_SIZE size) st.brk
    { block_at st.heap i with status := .FREE } rfl zs
  rw [hout, hreq]
  have hszfree : ({ block_at st.heap i with status := BStatus.FREE } : HBlock).size =
      (block_at st.heap i).size := rfl
  refine ⟨rfl, ?_, ?_, ?_⟩
  · show st.brk + (TOT_SIZE size -
      TOT_SIZE ({ block_at st.heap i with status := BStatus.FREE } : HBlock).size) = _
    rw [hszfree]
  · show st.brk < st.brk + (TOT_SIZE size -
      TOT_SIZE ({ block_at st.heap i with status := BStatus.FREE } : HBlock).size)
    rw [hszfree]
    omega
  · refine ⟨zs, ?_⟩
    show set_last_status (zs ++ [_]) .ALLOC = _
    rw [set_last_status_append]
    have hbeq : ({ { { block_at st.heap i with status := BStatus.FREE } with
        size := ({ block_at st.heap i with status := BStatus.FREE } : HBlock).size +
          (TOT_SIZE size -
            TOT_SIZE ({ block_at st.heap i with status := BStatus.FREE } : HBlock).size) }
        with status := BStatus.ALLOC } : HBlock) =
        ⟨a, TOT_SIZE size - META, BStatus.ALLOC⟩ := by
      show HBlock.mk (block_at st.heap i).addr
        ((block_at st.heap i).size +
          (TOT_SIZE size - TOT_SIZE (block_at st.heap i).size)) BStatus.ALLOC = _
      rw [haddr]
      have hsz : (block_at st.heap i).size +
          (TOT_SIZE size - TOT_SIZE (block_at st.heap i).size) =
          TOT_SIZE size - META := by omega
      rw [hsz]
    rw [hbeq]

/-- A small two-block heap [ALLOC, ALLOC] used to witness the tail-extension
path of heap realloc. -/
def c1_state : AllocState :=
  { heap := [⟨0, 8, .ALLOC⟩, ⟨32, 8, .ALLOC⟩], brk := 64,
    mmapList := [], tagCtr := 0, threshold := MMAP_THRESHOLD }

/-- Witness for C1: realloc of the last block of `c1_state` to a larger size
extends it in place. -/
theorem C1_witness :
    (os_realloc_sbrk c1_state 32 16).2 = Ptr.hp 32 ∧
    (os_realloc_sbrk c1_state 32 16).1.brk =
      c1_state.brk + (TOT_SIZE 16 - TOT_SIZE (block_at c1_state.heap 1).size) ∧
    c1_state.brk < (os_realloc_sbrk c1_state 32 16).1.brk ∧
    (∃ pre, (os_realloc_sbrk c1_state 32 16).1.heap =
      pre ++ [⟨32, TOT_SIZE 16 - META, .ALLOC⟩]) :=
  C1_realloc_tail_extension c1_state 32 16 1 (by decide) (by decide) (by decide)
    (by decide) (by decide) (by decide) (by decide)

theorem C1_counterexample :
    findIdx (execTrace [Event.malloc 131040, Event.malloc 104, Event.malloc 104,
      Event.free (Ptr.hp 131072)]).heap 131200 = some 2 ∧
    2 + 1 = (execTrace [Event.malloc 131040, Event.malloc 104, Event.malloc 104,
      Event.free (Ptr.hp 131072)]).heap.length ∧
    TOT_SIZE (block_at (execTrace [Event.malloc 131040, Event.malloc 104,
      Event.malloc 104, Event.free (Ptr.hp 131072)]).heap 2).size < TOT_SIZE 240 ∧
    TOT_SIZE 240 < (execTrace [Event.malloc 131040, Event.malloc 104,
      Event.malloc 104, Event.free (Ptr.hp 131072)]).threshold ∧
    (find_best_fit (TOT_SIZE 240) (set_status (execTrace [Event.malloc 131040,
      Event.malloc 104, Event.malloc 104,
      Event.free (Ptr.hp 131072)]).heap 2 .FREE)).2 = none ∧
    (os_realloc_sbrk (execTrace [Event.malloc 131040, Event.malloc 104,
      Event.malloc 104, Event.free (Ptr.hp 131072)]) 131200 240).2 =
      Ptr.hp 131200 ∧
    findIdx (os_realloc_sbrk (execTrace [Event.malloc 131040, Event.malloc 104,
      Event.malloc 104, Event.free (Ptr.hp 131072)]) 131200 240).1.heap 131200 =
      none := by decide

/-- C2 (amended): a split of a block of payload size s to serve a required
total of blk bytes leaves the block as {same address, blk − META, same
status} and creates the new FREE block at address + blk with payload size
s − blk (not s − (blk − META)); on a fresh allocator, malloc(100) leaves
{size 104, ALLOC} followed by {size 131072 − 2·META − 104, FREE}. -/
theorem C2_split_sizes (h : List HBlock) (i blk : Nat) (hi : i < h.length) :
    (split_at h i blk).length = h.length + 1 ∧
    block_at (split_at h i blk) i =
      ⟨(block_at h i).addr, blk - META, (block_at h i).status⟩ ∧
    block_at (split_at h i blk) (i + 1) =
      ⟨(block_at h i).addr + blk, (block_at h i).size - blk, .FREE⟩ ∧
    (execTrace [Event.malloc 100]).heap =
      [⟨0, 104, .ALLOC⟩, ⟨128, 131072 - 2 * META - 104, .FREE⟩] :=
  ⟨split_at_length h i blk hi, split_at_block_i h i blk hi,
    split_at_block_succ h i blk hi, by decide⟩

/-- Witness for C2: splitting the fresh 131048-byte free block at index 0
for a required total of 128 bytes. -/
theorem C2_witness :
    (split_at [(⟨0, 131048, .FREE⟩ : HBlock)] 0 128).length =
      [(⟨0, 131048, .FREE⟩ : HBlock)].length + 1 ∧
    block_at (split_at [(⟨0, 131048, .FREE⟩ : HBlock)] 0 128) 0 =
      ⟨(block_at [(⟨0, 131048, .FREE⟩ : HBlock)] 0).addr, 128 - META,
        (block_at [(⟨0, 131048, .FREE⟩ : HBlock)] 0).status⟩ ∧
    block_at (split_at [(⟨0, 131048, .FREE⟩ : HBlock)] 0 128) 1 =
      ⟨(block_at [(⟨0, 131048, .FREE⟩ : HBlock)] 0).addr + 128,
        (block_at [(⟨0, 131048, .FREE⟩ : HBlock)] 0).size - 128, .FREE⟩ ∧
    (execTrace [Event.malloc 100]).heap =
      [⟨0, 104, .ALLOC⟩, ⟨128, 131072 - 2 * META - 104, .FREE⟩] :=
  C2_split_sizes [⟨0, 131048, .FREE⟩] 0 128 (by decide)

/-- Counterexample to C2 as stated: after malloc(100) on the fresh
allocator, the second block's payload size is 130920 = 131072 − 2·META −
104, not 131072 − META − 104 = 130944 as the claim's formula
s − (required_total − META) would give. -/
theorem C2_counterexample :
    (block_at (execTrace [Event.malloc 100]).heap 1).size = 130920 ∧
    131072 - META - 104 = 130944 ∧
    (block_at (execTrace [Event.malloc 100]).heap 1).size ≠
      131072 - META - 104 := by decide

/-- The heap path of os_malloc touches neither the mapped list nor the tag
counter, and always hands back a heap pointer (both branches of
os_malloc_sbrk return `(char *) block + META_SIZE` for a heap block). -/
lemma os_malloc_sbrk_frame (st : AllocState) (size : Nat) :
    (os_malloc_sbrk st size).1.mmapList = st.mmapList ∧
    (os_malloc_sbrk st size).1.tagCtr = st.tagCtr ∧
    ∃ a, (os_malloc_sbrk st size).2 = Ptr.hp a := by
  unfold os_malloc_sbrk
  cases hfb : (find_best_fit (TOT_SIZE size)
      (if st.heap.isEmpty then heap_init st else st).heap).2 with
  | none =>
    simp only [hfb]
    refine ⟨?_, ?_, _, rfl⟩ <;> (split <;> rfl)
  | some q =>
    obtain ⟨i, s⟩ := q
    simp only [hfb]
    refine ⟨?_, ?_, _, rfl⟩ <;> (split <;> rfl)

/-- C3 (amended): with the threshold at its default MMAP_THRESHOLD, the
dispatch of os_malloc is two-sided.  Every request n with
total(align(n)) ≥ MMAP_THRESHOLD — in particular the request of exactly
MMAP_THRESHOLD − META bytes, whose total is exactly MMAP_THRESHOLD — is
served by mapping: a fresh mapped block is pushed and the heap list is left
untouched.  Every request with total(align(n)) < MMAP_THRESHOLD is served
from the heap: the call equals the os_malloc_sbrk path, the mapped list and
the mapped-tag counter are untouched, and the result is a heap pointer. -/
theorem C3_threshold_dispatch (st : AllocState) (n : Nat)
    (hth : st.threshold = MMAP_THRESHOLD) (hn : n ≠ 0) :
    (MMAP_THRESHOLD ≤ TOT_SIZE (ALIGN n) →
      (os_malloc st n).2 = Ptr.mp st.tagCtr ∧
      (os_malloc st n).1.heap = st.heap ∧
      (os_malloc st n).1.mmapList =
        (st.tagCtr, TOT_SIZE (ALIGN n) - META) :: st.mmapList) ∧
    (TOT_SIZE (ALIGN n) < MMAP_THRESHOLD →
      os_malloc st n = os_malloc_sbrk st (ALIGN n) ∧
      (os_malloc st n).1.mmapList = st.mmapList ∧
      (os_malloc st n).1.tagCtr = st.tagCtr ∧
      ∃ a, (os_malloc st n).2 = Ptr.hp a) := by
  constructor
  · intro hbig
    unfold os_malloc
    rw [if_neg hn]
    rw [if_neg (show ¬ TOT_SIZE (ALIGN n) < st.threshold from by omega)]
    exact ⟨rfl, rfl, rfl⟩
  · intro hsmall
    have hpath : os_malloc st n = os_malloc_sbrk st (ALIGN n) := by
      unfold os_malloc
      rw [if_neg hn]
      rw [if_pos (show TOT_SIZE (ALIGN n) < st.threshold from by omega)]
    have hf := os_malloc_sbrk_frame st (ALIGN n)
    rw [hpath]
    exact ⟨rfl, hf.1, hf.2.1, hf.2.2⟩

/-- Witness for C3, one request per direction: the boundary request of
exactly MMAP_THRESHOLD − META bytes on the fresh state is mapped, and a
request of 100 bytes on the fresh state takes the heap path. -/
theorem C3_witness :
    ((os_malloc initState (MMAP_THRESHOLD - META)).2 = Ptr.mp initState.tagCtr ∧
     (os_malloc initState (MMAP_THRESHOLD - META)).1.heap = initState.heap ∧
     (os_malloc initState (MMAP_THRESHOLD - META)).1.mmapList =
       (initState.tagCtr, TOT_SIZE (ALIGN (MMAP_THRESHOLD - META)) - META) ::
         initState.mmapList) ∧
    (os_malloc initState 100 = os_malloc_sbrk initState (ALIGN 100) ∧
     (os_malloc initState 100).1.mmapList = initState.mmapList ∧
     (os_malloc initState 100).1.tagCtr = initState.tagCtr ∧
     ∃ a, (os_malloc initState 100).2 = Ptr.hp a) :=
  ⟨(C3_threshold_dispatch initState (MMAP_THRESHOLD - META) rfl
      (by decide)).1 (by decide),
   (C3_threshold_dispatch initState 100 rfl (by decide)).2 (by decide)⟩

/-- Counterexample to C3 as stated: malloc of exactly MMAP_THRESHOLD − META
bytes on the fresh allocator is served by MAPPING (total = MMAP_THRESHOLD
is not strictly below the threshold), not from the heap: the result is a
mapped pointer and the heap list stays empty. -/
theorem C3_counterexample :
    (os_malloc initState (MMAP_THRESHOLD - META)).2 = Ptr.mp 0 ∧
    (os_malloc initState (MMAP_THRESHOLD - META)).1.heap = [] ∧
    (os_malloc initState (MMAP_THRESHOLD - META)).1.mmapList = [(0, 131048)] := by
  decide

/-- Counterexample to C4 as stated: freeing two adjacent blocks in
increasing address order (free coalesces only forward) leaves two
consecutive FREE blocks between public calls. -/
theorem C4_counterexample :
    ¬ noAdjFree (execTrace [Event.malloc 100, Event.malloc 100,
      Event.free (Ptr.hp 0), Event.free (Ptr.hp 128)]).heap := by decide

/-- C6: find_best_fit returns, among the blocks of the traversed
(coalesced) list that are FREE with total size ≥ block_size, one of
minimal size, the earliest on ties, and none exactly when there is no such
block; consequently, in the scenario A=malloc(100), B=malloc(200),
C=malloc(100), free(A), free(C), the call malloc(90) returns A's original
pointer (header address 0). -/
theorem C6_best_fit_spec (heap : List HBlock) (block_size : Nat) :
    bestFitSpec block_size (find_best_fit block_size heap).1
      (find_best_fit block_size heap).2 ∧
    (os_malloc (execTrace [Event.malloc 100, Event.malloc 200, Event.malloc 100,
      Event.free (Ptr.hp 0), Event.free (Ptr.hp 352)]) 90).2 = Ptr.hp 0 :=
  ⟨find_best_fit_spec block_size heap, by decide⟩

/-- Witness for C6: the specification instantiated on the scenario's heap
before the final malloc, with the required total of malloc(90). -/
theorem C6_witness :
    bestFitSpec (TOT_SIZE 96)
      (find_best_fit (TOT_SIZE 96)
        (execTrace [Event.malloc 100, Event.malloc 200, Event.malloc 100,
          Event.free (Ptr.hp 0), Event.free (Ptr.hp 352)]).heap).1
      (find_best_fit (TOT_SIZE 96)
        (execTrace [Event.malloc 100, Event.malloc 200, Event.malloc 100,
          Event.free (Ptr.hp 0), Event.free (Ptr.hp 352)]).heap).2 :=
  (C6_best_fit_spec
    (execTrace [Event.malloc 100, Event.malloc 200, Event.malloc 100,
      Event.free (Ptr.hp 0), Event.free (Ptr.hp 352)]).heap (TOT_SIZE 96)).1

/-- C7: realloc(null, size) is exactly malloc(size); realloc(p, 0) with
p non-null frees p and returns null; realloc of a FREE heap block with a
non-zero size returns null and changes nothing. -/
theorem C7_realloc_preliminary_cases :
    (∀ (st : AllocState) (size : Nat),
      os_realloc st Ptr.null size = os_malloc st size) ∧
    (∀ (st : AllocState) (p : Ptr), p ≠ Ptr.null →
      os_realloc st p 0 = (os_free st p, Ptr.null)) ∧
    (∀ (st : AllocState) (a i size : Nat), size ≠ 0 →
      findIdx st.heap a = some i → (block_at st.heap i).status = .FREE →
      os_realloc st (Ptr.hp a) size = (st, Ptr.null)) := by
  refine ⟨fun st size => rfl, ?_, ?_⟩
  · intro st p hp
    cases p with
    | null => exact absurd rfl hp
    | hp a => rfl
    | mp t => rfl
  · intro st a i size hs hf hfree
    show (if size = 0 then (os_free st (Ptr.hp a), Ptr.null)
      else
        match findIdx st.heap a with
        | some i =>
          if (block_at st.heap i).status = .FREE then (st, Ptr.null)
          else os_realloc_sbrk st a (ALIGN size)
        | none => os_realloc_sbrk st a (ALIGN size)) = (st, Ptr.null)
    rw [if_neg hs]
    simp only [hf]
    rw [if_pos hfree]

/-- A one-block heap whose single block is FREE, used to witness the
realloc-of-a-FREE-block case. -/
def c7_state : AllocState :=
  { heap := [⟨0, 8, .FREE⟩], brk := 32, mmapList := [],
    tagCtr := 0, threshold := MMAP_THRESHOLD }

/-- Witness for C7: realloc of the FREE block of `c7_state` with size 8
returns null and leaves the state unchanged. -/
theorem C7_witness :
    os_realloc c7_state (Ptr.hp 0) 8 = (c7_state, Ptr.null) :=
  C7_realloc_preliminary_cases.2.2 c7_state 0 0 8 (by decide) (by decide) (by decide)

/-- C8: a non-null pointer whose status is not MAPPED and whose header is
not reachable from heap_start: heap free is a no-op on the whole state, and
heap realloc (at both the dispatcher and os_realloc_sbrk level, any
non-zero size) returns null without mutating anything. -/
theorem C8_dangling_pointer (st : AllocState) (a size : Nat)
    (hnf : findIdx st.heap a = none) :
    os_free_sbrk st a = st ∧
    os_free st (Ptr.hp a) = st ∧
    os_realloc_sbrk st a size = (st, Ptr.null) ∧
    (size ≠ 0 → os_realloc st (Ptr.hp a) size = (st, Ptr.null)) := by
  have h1 : os_free_sbrk st a = st := by
    unfold os_free_sbrk
    rw [hnf]
  have h3 : ∀ sz, os_realloc_sbrk st a sz = (st, Ptr.null) := by
    intro sz
    unfold os_realloc_sbrk
    rw [hnf]
  refine ⟨h1, h1, h3 size, ?_⟩
  intro hs
  show (if size = 0 then (os_free st (Ptr.hp a), Ptr.null)
    else
      match findIdx st.heap a with
      | some i =>
        if (block_at st.heap i).status = .FREE then (st, Ptr.null)
        else os_realloc_sbrk st a (ALIGN size)
      | none => os_realloc_sbrk st a (ALIGN size)) = (st, Ptr.null)
  rw [if_neg hs]
  simp only [hnf]
  exact h3 (ALIGN size)

/-- Witness for C8: a pointer with header address 100 into the fresh,
empty-heap state. -/
theorem C8_witness :
    os_free_sbrk initState 100 = initState ∧
    os_free initState (Ptr.hp 100) = initState ∧
    os_realloc_sbrk initState 100 8 = (initState, Ptr.null) ∧
    ((8 : Nat) ≠ 0 → os_realloc initState (Ptr.hp 100) 8 = (initState, Ptr.null)) :=
  C8_dangling_pointer initState 100 8 (by decide)

/-- C10: whenever nmemb * size is zero in size_t arithmetic (in particular
when either factor is zero), calloc returns null and leaves the whole
allocator state — both lists and the threshold — exactly as before. -/
theorem C10_calloc_zero (st : AllocState) (nmemb size : Nat)
    (hth : st.threshold = MMAP_THRESHOLD)
    (hz : nmemb * size % SIZET_MOD = 0) :
    os_calloc st nmemb size = (st, Ptr.null) := by
  cases st with
  | mk heap brk mm tag th =>
    simp only [] at hth
    subst hth
    unfold os_calloc
    simp only [hz]
    rfl

/-- Witness for C10: calloc(0, 5) on the fresh state. -/
theorem C10_witness : os_calloc initState 0 5 = (initState, Ptr.null) :=
  C10_calloc_zero initState 0 5 rfl (by decide)

/-! ## Support for the free∘malloc round trip (claim C9) -/

theorem find_best_fit_id (blk : Nat) (h : List HBlock) (hn : noAdjFree h) :
    (find_best_fit blk h).1 = h := by
  cases h with
  | nil => rfl
  | cons b rest => exact fbfGo_id blk rest b 0 none hn

theorem status_overwrite (b : HBlock) (s1 s2 : BStatus) :
    ({ { b with status := s1 } with status := s2 } : HBlock) =
      { b with status := s2 } := rfl

theorem set_status_self (b : HBlock) (s : BStatus) (h : b.status = s) :
    ({ b with status := s } : HBlock) = b := by
  cases b with
  | mk a sz st =>
    simp only [] at h
    rw [show ({ addr := a, size := sz, status := s } : HBlock) =
      { addr := a, size := sz, status := st } from by rw [h]]

theorem set_status_take (s : BStatus) :
    ∀ (h : List HBlock) (i : Nat), (set_status h i s).take i = h.take i := by
  intro h
  induction h with
  | nil => intro i; rfl
  | cons b rest ih =>
    intro i
    match i with
    | 0 => rfl
    | i + 1 =>
      show { b with status := s } :: rest |> fun _ => _
      simp only [set_status, List.take_succ_cons]
      rw [ih i]

theorem set_status_drop (s : BStatus) :
    ∀ (h : List HBlock) (i : Nat), (set_status h i s).drop (i + 1) = h.drop (i + 1) := by
  intro h
  induction h with
  | nil => intro i; rfl
  | cons b rest ih =>
    intro i
    match i with
    | 0 => rfl
    | i + 1 =>
      simp only [set_status, List.drop_succ_cons]
      exact ih i

theorem drop_len_succ_append (xs : List HBlock) (b : HBlock) (l : List HBlock) :
    (xs ++ b :: l).drop (xs.length + 1) = l := by
  induction xs with
  | nil => rfl
  | cons x xs' ih =>
    simp only [List.cons_append, List.length_cons]
    show (x :: (xs' ++ b :: l)).drop (xs'.length + 1 + 1) = l
    rw [List.drop_succ_cons]
    exact ih

theorem take_len_append (xs ys : List HBlock) : (xs ++ ys).take xs.length = xs := by
  simp

theorem take_len_append' (xs ys : List HBlock) (i : Nat) (hx : xs.length = i) :
    (xs ++ ys).take i = xs := by
  subst hx
  simp

theorem drop_len_succ_append' (xs : List HBlock) (b : HBlock) (l : List HBlock)
    (i : Nat) (hx : xs.length = i) : (xs ++ b :: l).drop (i + 1) = l := by
  subst hx
  exact drop_len_succ_append xs b l

theorem split_at_take (h : List HBlock) (i blk : Nat) (hi : i < h.length) :
    (split_at h i blk).take i = h.take i := by
  show (h.take i ++
    (⟨(block_at h i).addr, blk - META, (block_at h i).status⟩ : HBlock) ::
      (⟨(block_at h i).addr + blk, (block_at h i).size - blk, .FREE⟩ : HBlock) ::
        h.drop (i + 1)).take i = h.take i
  exact take_len_append' _ _ _ (length_take_of_lt h i (le_of_lt hi))

theorem split_at_drop_succ (h : List HBlock) (i blk : Nat) (hi : i < h.length) :
    (split_at h i blk).drop (i + 1) =
      ⟨(block_at h i).addr + blk, (block_at h i).size - blk, .FREE⟩ ::
        h.drop (i + 1) := by
  show (h.take i ++
    (⟨(block_at h i).addr, blk - META, (block_at h i).status⟩ : HBlock) ::
      (⟨(block_at h i).addr + blk, (block_at h i).size - blk, .FREE⟩ : HBlock) ::
        h.drop (i + 1)).drop (i + 1) = _
  exact drop_len_succ_append' _ _ _ _ (length_take_of_lt h i (le_of_lt hi))


/-- C9: the free-after-malloc round trip.  The spec's unconditional law is
refuted by C9_counterexample (a malloc may extend the heap via sbrk, or
permanently coalesce previously adjacent FREE blocks).  Amended statement:
on a well-formed heap (chain invariant) with no two adjacent FREE blocks,
when the request takes the sbrk path and find_best_fit returns a candidate
(so no heap extension happens), os_free of the pointer just returned by
os_malloc restores the heap list exactly - same blocks, same length, same
total free bytes. -/
theorem C9_free_malloc_roundtrip (st : AllocState) (n : Nat)
    (hw : WF st) (hnadj : noAdjFree st.heap)
    (hn : n ≠ 0) (hheap : TOT_SIZE (ALIGN n) < st.threshold)
    (hcand : (find_best_fit (TOT_SIZE (ALIGN n)) st.heap).2 ≠ none) :
    (os_free (os_malloc st n).1 (os_malloc st n).2).heap = st.heap ∧
    (os_free (os_malloc st n).1 (os_malloc st n).2).heap.length = st.heap.length ∧
    freeBytes (os_free (os_malloc st n).1 (os_malloc st n).2).heap =
      freeBytes st.heap := by
  obtain ⟨q, hfb⟩ : ∃ q, (find_best_fit (TOT_SIZE (ALIGN n)) st.heap).2 = some q := by
    cases hq : (find_best_fit (TOT_SIZE (ALIGN n)) st.heap).2 with
    | none => exact absurd hq hcand
    | some q => exact ⟨q, rfl⟩
  obtain ⟨i, s⟩ := q
  have hid := find_best_fit_id (TOT_SIZE (ALIGN n)) st.heap hnadj
  have hspec := find_best_fit_spec (TOT_SIZE (ALIGN n)) st.heap
  rw [hfb, hid] at hspec
  obtain ⟨hi, hcandi, hs, _, _⟩ := hspec
  have hfree : (block_at st.heap i).status = .FREE := hcandi.1
  have hne : ¬ st.heap.isEmpty = true := by
    cases hh : st.heap with
    | nil => rw [hh] at hi; simp at hi
    | cons b r => simp
  have hsz8 : (block_at st.heap i).size % 8 = 0 := chainBrk_size_mod8 _ _ _ hw i hi
  have h8 : TOT_SIZE (ALIGN n) % 8 = 0 := TOT_SIZE_mod8 _
  have hMge : META ≤ TOT_SIZE (ALIGN n) := META_le_TOT_SIZE _
  have hmono := chainBrk_addr_increasing _ _ _ hw
  have hmalloc : os_malloc st n = os_malloc_sbrk st (ALIGN n) := by
    unfold os_malloc
    rw [if_neg hn, if_pos hheap]
  have hmalloc2 : os_malloc_sbrk st (ALIGN n) =
      ({ st with heap :=
          if TOT_SIZE (ALIGN n) < (block_at st.heap i).size
          then split_at (set_status st.heap i .ALLOC) i (TOT_SIZE (ALIGN n))
          else set_status st.heap i .ALLOC },
        Ptr.hp (block_at st.heap i).addr) := by
    unfold os_malloc_sbrk
    rw [if_neg hne]
    simp only [hfb]
    rw [hid]
  suffices hkey : (os_free (os_malloc st n).1 (os_malloc st n).2).heap = st.heap by
    exact ⟨hkey, by rw [hkey], by rw [hkey]⟩
  rw [hmalloc, hmalloc2]
  -- the stop condition of the forward coalesce after the free
  have hstop : coalesceRun (block_at st.heap i) (st.heap.drop (i + 1)) =
      (block_at st.heap i, st.heap.drop (i + 1)) := by
    apply coalesceRun_stop
    cases hd : st.heap.drop (i + 1) with
    | nil => exact Or.inl rfl
    | cons c tl =>
      right
      rintro ⟨_, hcf⟩
      have hlen2 : (st.heap.drop (i + 1)).length = tl.length + 1 := by
        rw [hd]
        rfl
      rw [List.length_drop] at hlen2
      have hlen : i + 1 < st.heap.length := by omega
      have hc0 : block_at st.heap (i + 1) = c := by
        have hb := (block_at_drop st.heap (i + 1) 0).symm
        rw [hd] at hb
        exact hb
      exact hnadj i hlen ⟨hfree, by rw [hc0]; exact hcf⟩
  by_cases hsplit : TOT_SIZE (ALIGN n) < (block_at st.heap i).size
  · -- split case
    rw [if_pos hsplit]
    have hi2 : i < (set_status st.heap i .ALLOC).length := by
      rw [set_status_length]
      exact hi
    have hfidx : findIdx (split_at (set_status st.heap i .ALLOC) i (TOT_SIZE (ALIGN n)))
        (block_at st.heap i).addr = some i := by
      apply (findIdx_eq_some_iff _ _ _).2
      refine ⟨?_, ?_, ?_⟩
      · rw [split_at_length _ _ _ hi2, set_status_length]
        omega
      · rw [split_at_block_i _ _ _ hi2]
        show (block_at (set_status st.heap i .ALLOC) i).addr = _
        rw [block_at_set_status_eq _ _ _ hi]
      · intro j hj
        rw [split_at_block_lt _ _ _ _ hi2 hj]
        rw [block_at_set_status_ne _ _ _ _ (by omega)]
        exact Nat.ne_of_lt (hmono j i hj hi)
    have hworld : (os_free_sbrk { st with
        heap := split_at (set_status st.heap i .ALLOC) i (TOT_SIZE (ALIGN n)) }
        (block_at st.heap i).addr).heap = st.heap := by
      unfold os_free_sbrk
      rw [hfidx]
      show (split_at (set_status st.heap i .ALLOC) i (TOT_SIZE (ALIGN n))).take i ++ _ = _
      have hcur : ({ block_at (split_at (set_status st.heap i .ALLOC) i
          (TOT_SIZE (ALIGN n))) i with status := BStatus.FREE } : HBlock) =
          ⟨(block_at st.heap i).addr, TOT_SIZE (ALIGN n) - META, .FREE⟩ := by
        rw [split_at_block_i _ _ _ hi2]
        show (⟨(block_at (set_status st.heap i .ALLOC) i).addr,
          TOT_SIZE (ALIGN n) - META, BStatus.FREE⟩ : HBlock) = _
        rw [block_at_set_status_eq _ _ _ hi]
      have hdrop : (split_at (set_status st.heap i .ALLOC) i
          (TOT_SIZE (ALIGN n))).drop (i + 1) =
          (⟨(block_at st.heap i).addr + TOT_SIZE (ALIGN n),
            (block_at st.heap i).size - TOT_SIZE (ALIGN n), .FREE⟩ : HBlock) ::
            st.heap.drop (i + 1) := by
        rw [split_at_drop_succ _ _ _ hi2]
        rw [set_status_drop]
        rw [block_at_set_status_eq _ _ _ hi]
      rw [hcur, hdrop]
      have hmerge : coalesceRun
          (⟨(block_at st.heap i).addr, TOT_SIZE (ALIGN n) - META, .FREE⟩ : HBlock)
          ((⟨(block_at st.heap i).addr + TOT_SIZE (ALIGN n),
            (block_at st.heap i).size - TOT_SIZE (ALIGN n), .FREE⟩ : HBlock) ::
            st.heap.drop (i + 1)) =
          (block_at st.heap i, st.heap.drop (i + 1)) := by
        rw [coalesceRun, if_pos ⟨rfl, rfl⟩]
        have hsz : TOT_SIZE (ALIGN n) - META +
            TOT_SIZE ((block_at st.heap i).size - TOT_SIZE (ALIGN n)) =
            (block_at st.heap i).size := by
          have hT := TOT_SIZE_eq_of_mod8 ((block_at st.heap i).size - TOT_SIZE (ALIGN n))
            (by omega)
          unfold META at hMge hT ⊢
          omega
        show coalesceRun (⟨(block_at st.heap i).addr,
          TOT_SIZE (ALIGN n) - META +
            TOT_SIZE ((block_at st.heap i).size - TOT_SIZE (ALIGN n)), .FREE⟩ : HBlock)
          (st.heap.drop (i + 1)) = _
        rw [hsz]
        have hbi : (⟨(block_at st.heap i).addr, (block_at st.heap i).size,
            BStatus.FREE⟩ : HBlock) = block_at st.heap i := by
          rw [show BStatus.FREE = (block_at st.heap i).status from hfree.symm]
        rw [hbi]
        exact hstop
      rw [hmerge]
      rw [split_at_take _ _ _ hi2, set_status_take]
      exact take_cons_drop st.heap i hi
    exact hworld
  · -- no-split case
    rw [if_neg hsplit]
    have hfidx : findIdx (set_status st.heap i .ALLOC)
        (block_at st.heap i).addr = some i := by
      apply (findIdx_eq_some_iff _ _ _).2
      refine ⟨?_, ?_, ?_⟩
      · rw [set_status_length]
        exact hi
      · rw [block_at_set_status_eq _ _ _ hi]
      · intro j hj
        rw [block_at_set_status_ne _ _ _ _ (by omega)]
        exact Nat.ne_of_lt (hmono j i hj hi)
    have hworld : (os_free_sbrk { st with heap := set_status st.heap i .ALLOC }
        (block_at st.heap i).addr).heap = st.heap := by
      unfold os_free_sbrk
      rw [hfidx]
      show (set_status st.heap i .ALLOC).take i ++ _ = _
      have hcur : ({ block_at (set_status st.heap i .ALLOC) i with
          status := BStatus.FREE } : HBlock) = block_at st.heap i := by
        rw [block_at_set_status_eq _ _ _ hi]
        rw [status_overwrite]
        exact set_status_self _ _ hfree
      rw [hcur, set_status_drop, set_status_take, hstop]
      exact take_cons_drop st.heap i hi
    exact hworld

/-- C9 witness: in the state after one malloc(100) (heap
[(0,104,ALLOC), (128,130920,FREE)]), free(malloc(104)) restores the heap
exactly. -/
theorem C9_witness :
    (os_free (os_malloc (execTrace [Event.malloc 100]) 104).1
      (os_malloc (execTrace [Event.malloc 100]) 104).2).heap =
      (execTrace [Event.malloc 100]).heap :=
  (C9_free_malloc_roundtrip (execTrace [Event.malloc 100]) 104
    (by decide) (by decide) (by decide) (by decide) (by decide)).1

/-- C9 counterexample to the unconditional round-trip law: starting from the
initial state (empty heap), os_malloc 104 triggers heap_init, and the
subsequent os_free leaves one big FREE block - the heap list is not restored
(it even has different length). -/
theorem C9_counterexample :
    (os_free (os_malloc initState 104).1 (os_malloc initState 104).2).heap ≠
      initState.heap ∧
    (os_free (os_malloc initState 104).1 (os_malloc initState 104).2).heap.length ≠
      initState.heap.length := by
  constructor
  · decide
  · decide
